import Mathlib

/-!
# Bounded buffer producer/consumer (`pthread.c`)

A shallow embedding of the circular buffer of `pthread.c` (`init`, `put`, `get`)
and of the two threads that use it (`producer`, `consumer`), followed by the
properties proved about them.

Conventions of the embedding

* C `int` values are `Int`.  The positions `readpos`/`writepos` only ever take
  values in `0..16`, and the produced data lies in `-1..999`, so no arithmetic
  of the program comes near the 32-bit range.
* C's `%` truncates towards zero: it is `Int.tmod`.
* The mutex makes the body of `put` and of `get` atomic with respect to the
  buffer.  `pthread_cond_wait` inside the `while` guard is rendered by the
  outcome `Outcome.wait`: the call cannot complete in that state and the caller
  stays suspended until the state has changed.
* An access outside `int buffer[BUFFER_SIZE]` is the outcome `Outcome.fault`.
-/

namespace ProdCons

/-! ## The buffer -/

/-- The macro `BUFFER_SIZE`. -/
def BUFFER_SIZE : Int := 16

/-- The macro `OVER`, the end-of-stream value. -/
def OVER : Int := -1

/-- The field `int buffer[BUFFER_SIZE]`: exactly sixteen `int`s. -/
abbrev Slots : Type := { l : List Int // l.length = 16 }

/-- The `struct prodcons` without its synchronisation objects: the data array
and the two positions. -/
structure prodcons where
  buffer : Slots
  readpos : Int
  writepos : Int
deriving DecidableEq

/-- Result of calling a buffer operation in a given state: it completes with a
value, it has to wait on its condition variable, or it indexes outside the
array. -/
inductive Outcome (α : Type) where
  | done : α → Outcome α
  | wait : Outcome α
  | fault : Outcome α
deriving DecidableEq

/-- The array read `b->buffer[i]` for an index inside the array. -/
def readSlot (a : Slots) (i : Int) : Int := a.val.getD i.toNat 0

/-- The array write `b->buffer[i] = data` for an index inside the array. -/
def writeSlot (a : Slots) (i : Int) (data : Int) : Slots :=
  ⟨a.val.set i.toNat data, by rw [List.length_set]; exact a.property⟩

/-- The global `struct prodcons buffer` at program start: static storage is
zero-initialised. -/
def zeroed : prodcons :=
  { buffer := ⟨List.replicate 16 0, by decide⟩, readpos := 0, writepos := 0 }

/-- The function `init`: both positions are set to 0, the array is left as it
is. -/
def init (b : prodcons) : prodcons :=
  let b1 := { b with readpos := 0 }
  { b1 with writepos := 0 }

/-- The function `put`.  While `(writepos + 1) % BUFFER_SIZE == readpos` the
caller waits; otherwise the item is stored at `writepos`, which is then
incremented and reset to 0 when it reaches `BUFFER_SIZE`. -/
def put (b : prodcons) (data : Int) : Outcome prodcons :=
  if (b.writepos + 1).tmod BUFFER_SIZE = b.readpos then Outcome.wait
  else if 0 ≤ b.writepos ∧ b.writepos < BUFFER_SIZE then
    let b1 := { b with buffer := writeSlot b.buffer b.writepos data }
    let b2 := { b1 with writepos := b1.writepos + 1 }
    Outcome.done (if b2.writepos ≥ BUFFER_SIZE then { b2 with writepos := 0 } else b2)
  else Outcome.fault

/-- The function `get`.  While `writepos == readpos` the caller waits;
otherwise the item at `readpos` is read, `readpos` is incremented and reset to
0 when it reaches `BUFFER_SIZE`, and the item is returned. -/
def get (b : prodcons) : Outcome (Int × prodcons) :=
  if b.writepos = b.readpos then Outcome.wait
  else if 0 ≤ b.readpos ∧ b.readpos < BUFFER_SIZE then
    let data := readSlot b.buffer b.readpos
    let b1 := { b with readpos := b.readpos + 1 }
    Outcome.done (data, if b1.readpos ≥ BUFFER_SIZE then { b1 with readpos := 0 } else b1)
  else Outcome.fault

/-! ## Sequences of buffer operations -/

/-- One call on the buffer. -/
inductive Op where
  | put : Int → Op
  | get : Op
deriving DecidableEq

/-- The values passed to `put` by a sequence of calls, in order. -/
def putsOf : List Op → List Int
  | [] => []
  | Op.put v :: ops => v :: putsOf ops
  | Op.get :: ops => putsOf ops

/-- Runs a sequence of calls, each of which has to complete in the state it is
issued in; the result is the final buffer and the values the `get`s returned,
in order.  `none` when some call would wait or fault. -/
def runOps (b : prodcons) : List Op → Option (prodcons × List Int)
  | [] => some (b, [])
  | Op.put v :: ops =>
    match put b v with
    | Outcome.done b1 => runOps b1 ops
    | _ => none
  | Op.get :: ops =>
    match get b with
    | Outcome.done (d, b1) => (runOps b1 ops).map (fun r => (r.1, d :: r.2))
    | _ => none

/-! ## Abstraction of a buffer state -/

/-- Both positions index the array. -/
def inRange (b : prodcons) : Prop :=
  0 ≤ b.readpos ∧ b.readpos < BUFFER_SIZE ∧ 0 ≤ b.writepos ∧ b.writepos < BUFFER_SIZE

instance (b : prodcons) : Decidable (inRange b) :=
  inferInstanceAs (Decidable (0 ≤ b.readpos ∧ b.readpos < BUFFER_SIZE ∧
    0 ≤ b.writepos ∧ b.writepos < BUFFER_SIZE))

/-- Number of queued items, `(writepos - readpos) mod 16`. -/
def occupancy (b : prodcons) : Nat := ((b.writepos - b.readpos) % 16).toNat

/-- The slots read cyclically from `readpos` up to (not including)
`writepos`. -/
def queued (b : prodcons) : List Int :=
  (List.range (occupancy b)).map
    (fun (i : Nat) => readSlot b.buffer ((b.readpos + (i : Int)) % 16))

/-! ## The two threads

`producer` and `consumer` run concurrently and share the buffer.  Each is
rendered as a step function between its control points; a schedule is the
order in which the threads take their steps.  A call of `put` or `get` is one
step, taken when the call completes.

The flag `running` is `volatile` and is written by a third thread
(`inputHandler`), so what `producer` reads from it is an input of the system:
`running n` is the value read by the check `if (!running) break;` of
iteration `n`. -/

/-- Control points of `producer`. -/
inductive ProducerPc where
  /-- At the head of the `for` loop: `n < 1000`, then the check of `running`. -/
  | test : ProducerPc
  /-- About to call `put(&buffer, n)`. -/
  | call : ProducerPc
  /-- After the loop, about to call `put(&buffer, OVER)`. -/
  | over : ProducerPc
  /-- Returned. -/
  | returned : ProducerPc
deriving DecidableEq

/-- Control points of `consumer`. -/
inductive ConsumerPc where
  /-- In the `while (1)` loop, about to call `get(&buffer)`. -/
  | call : ConsumerPc
  /-- Returned. -/
  | returned : ConsumerPc
deriving DecidableEq

/-- State of the running program: the shared buffer, where each thread is, the
producer's local `n`, what `consumer` has printed, and the history of the
completed calls (arguments of `put`, results of `get`). -/
structure System where
  buffer : prodcons
  ppc : ProducerPc
  n : Int
  cpc : ConsumerPc
  printed : List Int
  puts : List Int
  gets : List Int
deriving DecidableEq

/-- The state in which `main` starts the threads: `init(&buffer)` has run on
the zero-initialised global, `producer` is at `n = 0`. -/
def start : System :=
  { buffer := init zeroed, ppc := ProducerPc.test, n := 0, cpc := ConsumerPc.call,
    printed := [], puts := [], gets := [] }

/-- One step of the thread `producer`; `none` when it cannot move (its call has
to wait, or it has returned). -/
def producer (running : Int → Bool) (s : System) : Option System :=
  match s.ppc with
  | ProducerPc.test =>
    if s.n < 1000 then
      if !running s.n then some { s with ppc := ProducerPc.over }
      else some { s with ppc := ProducerPc.call }
    else some { s with ppc := ProducerPc.over }
  | ProducerPc.call =>
    match put s.buffer s.n with
    | Outcome.done b =>
      some { s with buffer := b, puts := s.puts ++ [s.n], n := s.n + 1, ppc := ProducerPc.test }
    | _ => none
  | ProducerPc.over =>
    match put s.buffer OVER with
    | Outcome.done b =>
      some { s with buffer := b, puts := s.puts ++ [OVER], ppc := ProducerPc.returned }
    | _ => none
  | ProducerPc.returned => none

/-- One step of the thread `consumer`: a completed `get`, the test
`d == OVER`, and the `printf` of `d` when it is not `OVER`; `none` when it
cannot move. -/
def consumer (s : System) : Option System :=
  match s.cpc with
  | ConsumerPc.call =>
    match get s.buffer with
    | Outcome.done (d, b) =>
      if d = OVER then
        some { s with buffer := b, gets := s.gets ++ [d], cpc := ConsumerPc.returned }
      else
        some { s with buffer := b, gets := s.gets ++ [d], printed := s.printed ++ [d] }
    | _ => none
  | ConsumerPc.returned => none

/-- The two threads. -/
inductive Thread where
  | prod : Thread
  | cons : Thread
deriving DecidableEq

/-- One step of the given thread. -/
def step (running : Int → Bool) (s : System) : Thread → Option System
  | Thread.prod => producer running s
  | Thread.cons => consumer s

/-- Runs a schedule: each scheduled thread takes one step; `none` when a
scheduled thread cannot move. -/
def exec (running : Int → Bool) (s : System) : List Thread → Option System
  | [] => some s
  | t :: ts =>
    match step running s t with
    | some s1 => exec running s1 ts
    | none => none

/-- Both threads have returned. -/
def finished (s : System) : Prop :=
  s.ppc = ProducerPc.returned ∧ s.cpc = ConsumerPc.returned

instance (s : System) : Decidable (finished s) :=
  inferInstanceAs (Decidable (s.ppc = ProducerPc.returned ∧ s.cpc = ConsumerPc.returned))

/-- The integers `0, 1, ..., k-1`. -/
def upto (k : Nat) : List Int := (List.range k).map (fun (i : Nat) => (i : Int))

/-- The first iteration `n < 1000` whose check reads `running` as false, and
1000 when there is none. -/
def cancelPoint (running : Int → Bool) : Nat :=
  (List.range 1000).findIdx (fun (i : Nat) => !running (i : Int))

/-- Number of steps `producer` has taken when it is at a given control point
with a given `n`. -/
def producerSteps (s : System) : Nat :=
  match s.ppc with
  | ProducerPc.test => 2 * s.n.toNat
  | ProducerPc.call => 2 * s.n.toNat + 1
  | ProducerPc.over => 2 * s.n.toNat + 1
  | ProducerPc.returned => 2 * s.n.toNat + 2

/-- The invariant of the running program. -/
def Inv (running : Int → Bool) (s : System) : Prop :=
  inRange s.buffer ∧
  s.puts = s.gets ++ queued s.buffer ∧
  0 ≤ s.n ∧ s.n ≤ 1000 ∧
  (∀ m : Nat, (m : Int) < s.n → running (m : Int) = true) ∧
  (match s.ppc with
    | ProducerPc.test => s.puts = upto s.n.toNat
    | ProducerPc.call => s.n < 1000 ∧ running s.n = true ∧ s.puts = upto s.n.toNat
    | ProducerPc.over => (s.n < 1000 → running s.n = false) ∧ s.puts = upto s.n.toNat
    | ProducerPc.returned =>
      (s.n < 1000 → running s.n = false) ∧ s.puts = upto s.n.toNat ++ [OVER]) ∧
  (match s.cpc with
    | ConsumerPc.call => s.printed = s.gets ∧ OVER ∉ s.gets
    | ConsumerPc.returned => s.gets = s.printed ++ [OVER] ∧ OVER ∉ s.printed)

/-- A round-robin schedule: `k` rounds of two producer steps and one consumer
step. -/
def rounds (k : Nat) : List Thread :=
  (List.replicate k [Thread.prod, Thread.prod, Thread.cons]).flatten

/-- Number of steps the two threads have taken to reach a state. -/
def stepsTaken (s : System) : Nat := producerSteps s + s.gets.length

/-! ## Sample runs

Concrete operation sequences and schedules, with the states they end in. -/

/-- Twelve puts, nine gets, ten more puts (which wrap past slot 15), four
gets. -/
def sampleOps : List Op :=
  (List.range 12).map (fun (i : Nat) => Op.put (10 * (i : Int))) ++ List.replicate 9 Op.get ++
    (List.range 10).map (fun (i : Nat) => Op.put (7 - (i : Int))) ++ List.replicate 4 Op.get

/-- The buffer after `sampleOps`. -/
def sampleOpsBuffer : prodcons :=
  { buffer := ⟨[3, 2, 1, 0, -1, -2, 60, 70, 80, 90, 100, 110, 7, 6, 5, 4], by decide⟩,
    readpos := 13, writepos := 6 }

/-- The values returned by the gets of `sampleOps`. -/
def sampleOpsGets : List Int := [0, 10, 20, 30, 40, 50, 60, 70, 80, 90, 100, 110, 7]

/-- A shorter sequence: five puts, two gets. -/
def shortOps : List Op :=
  [Op.put 5, Op.put 6, Op.get, Op.put 7, Op.put 8, Op.get, Op.put 9]

/-- The buffer after `shortOps`. -/
def shortOpsBuffer : prodcons :=
  { buffer := ⟨[5, 6, 7, 8, 9, 0, 0, 0, 0, 0, 0, 0, 0, 0, 0, 0], by decide⟩,
    readpos := 2, writepos := 5 }

/-- A sequence that ends with the write position back at slot 0. -/
def wrapOps : List Op :=
  (List.range 15).map (fun (i : Nat) => Op.put (i : Int)) ++ [Op.get, Op.put 15]

/-- The buffer after `wrapOps`. -/
def wrapOpsBuffer : prodcons :=
  { buffer := ⟨[0, 1, 2, 3, 4, 5, 6, 7, 8, 9, 10, 11, 12, 13, 14, 15], by decide⟩,
    readpos := 1, writepos := 0 }

/-- The state in which both threads have returned after `k` data items, given
the final array and the final position. -/
def finalState (slots : Slots) (pos : Int) (k : Nat) : System :=
  { buffer := { buffer := slots, readpos := pos, writepos := pos },
    ppc := ProducerPc.returned, n := k, cpc := ConsumerPc.returned,
    printed := upto k, puts := upto k ++ [OVER], gets := upto k ++ [OVER] }

/-- The flag is read as true in iterations `0..k-1` and as false from
iteration `k` on. -/
def stopAt (k : Int) : Int → Bool := fun n => decide (n < k)

/-- The flag is read as false in iteration `k` only. -/
def stopOnlyAt (k : Int) : Int → Bool := fun n => decide (n ≠ k)

/-- The flag is never read as false. -/
def neverStop : Int → Bool := fun _ => true

/-- The producer runs ahead until the buffer is full, then the threads
alternate, then the consumer drains the buffer. -/
def aheadSchedule : List Thread :=
  List.replicate 31 Thread.prod ++ List.replicate 6 Thread.cons ++ rounds 5 ++ [Thread.prod] ++
    List.replicate 10 Thread.cons

/-- The state after `aheadSchedule` when the flag stops the producer at 20. -/
def aheadFinal : System :=
  finalState ⟨[16, 17, 18, 19, -1, 5, 6, 7, 8, 9, 10, 11, 12, 13, 14, 15], by decide⟩ 5 20

/-- The consumer takes each item as soon as it is there. -/
def eagerSchedule : List Thread :=
  [Thread.prod, Thread.prod] ++
    (List.replicate 18 [Thread.prod, Thread.cons, Thread.prod]).flatten ++ [Thread.cons]

/-- The state after `eagerSchedule` when the flag stops the producer at 18. -/
def eagerFinal : System :=
  finalState ⟨[16, 17, -1, 3, 4, 5, 6, 7, 8, 9, 10, 11, 12, 13, 14, 15], by decide⟩ 3 18

/-- The state after the full run `rounds 1001` when the flag is never read as
false. -/
def fullFinal : System :=
  finalState
    ⟨[992, 993, 994, 995, 996, 997, 998, 999, -1, 985, 986, 987, 988, 989, 990, 991],
      by decide⟩ 9 1000

/-- The state after `rounds 1` when the flag is read as false at once. -/
def cancelledFinal : System :=
  finalState ⟨[-1, 0, 0, 0, 0, 0, 0, 0, 0, 0, 0, 0, 0, 0, 0, 0], by decide⟩ 1 0

/-- The state after eight producer steps when the flag stops the producer at
3: the producer has returned, the consumer has not run. -/
def producerOnlyFinal : System :=
  { buffer :=
      { buffer := ⟨[0, 1, 2, -1, 0, 0, 0, 0, 0, 0, 0, 0, 0, 0, 0, 0], by decide⟩,
        readpos := 0, writepos := 4 },
    ppc := ProducerPc.returned, n := 3, cpc := ConsumerPc.call,
    printed := [], puts := [0, 1, 2, -1], gets := [] }

/-- A second schedule for a run of 17 items: the producer fills the buffer, the
consumer empties it, and so on. -/
def burstSchedule : List Thread :=
  List.replicate 30 Thread.prod ++ List.replicate 15 Thread.cons ++
    List.replicate 6 Thread.prod ++ List.replicate 3 Thread.cons

/-- The state after a run of 17 items, under `rounds 18` and under
`burstSchedule` alike. -/
def seventeenFinal : System :=
  finalState ⟨[16, -1, 2, 3, 4, 5, 6, 7, 8, 9, 10, 11, 12, 13, 14, 15], by decide⟩ 2 17

/-- The array after `k` rounds of the full run: item `i` went to slot
`i mod 16`. -/
def slotsAfter : Nat → Slots
  | 0 => zeroed.buffer
  | k + 1 => writeSlot (slotsAfter k) ((k : Int) % 16) (k : Int)

/-- The state after `k` rounds of the round-robin schedule while the flag is
read as true: `k` items produced and consumed, the buffer empty. -/
def roundState (k : Nat) : System :=
  { buffer := { buffer := slotsAfter k, readpos := (k : Int) % 16, writepos := (k : Int) % 16 },
    ppc := ProducerPc.test, n := (k : Int), cpc := ConsumerPc.call,
    printed := upto k, puts := upto k, gets := upto k }

/-- The calls `put v; get` for each value of a list, in order. -/
def putGetPairs : List Int → List Op
  | [] => []
  | v :: vs => Op.put v :: Op.get :: putGetPairs vs

/-- An empty buffer whose positions are both at the last slot. -/
def emptyAtLast : prodcons :=
  { buffer := zeroed.buffer, readpos := 15, writepos := 15 }

/-- The loop of `consumer` run on the values that its successive calls of
`get` return: the values it prints, the number of calls of `get` it makes,
and the control point it ends at.  A value equal to `OVER` ends the loop, so
the values after it are never asked for. -/
def consumerLoop : List Int → List Int × Nat × ConsumerPc
  | [] => ([], 0, ConsumerPc.call)
  | d :: ds =>
    if d = OVER then ([], 1, ConsumerPc.returned)
    else (d :: (consumerLoop ds).1, (consumerLoop ds).2.1 + 1, (consumerLoop ds).2.2)

/-- The values of a list that precede its first `OVER`. -/
def beforeOver (ds : List Int) : List Int := ds.takeWhile (fun d => decide (d ≠ OVER))

/-! ## Start-up

`init` calls `pthread_mutex_init` once and `pthread_cond_init` twice.  Each of
them reports success as 0 and failure as an error number; these results are
inputs of the program. -/

/-- The results of the three calls made by `init`, in the order of the
calls: for `lock`, for `notempty`, for `notfull`. -/
structure InitResults where
  lock : Int
  notempty : Int
  notfull : Int
deriving DecidableEq

/-- What `main` does once `init` has returned: it gives up, or it creates the
threads, which then run from the given state. -/
inductive Startup where
  | aborted : Startup
  | started : System → Startup
deriving DecidableEq

/-- The function `init` with the results of its three calls made explicit.
`init` is `void` and uses none of them: it goes on to set both positions
to 0. -/
def initWith (_results : InitResults) (b : prodcons) : prodcons :=
  init b

/-- The function `main` up to the creation of the threads: `init(&buffer)` on
the zero-initialised global, then `pthread_create` for `producer` and
`consumer`, with no test in between. -/
def mainStartup (results : InitResults) : Startup :=
  Startup.started
    { buffer := initWith results zeroed, ppc := ProducerPc.test, n := 0,
      cpc := ConsumerPc.call, printed := [], puts := [], gets := [] }

/-- Initialisation in which `pthread_mutex_init` fails with `ENOMEM` (12). -/
def lockFails : InitResults := { lock := 12, notempty := 0, notfull := 0 }

/-! ## The calls statement by statement

Above, a call of `put` or `get` is one step, which is what the mutex is there
to achieve.  Here a call is followed statement by statement, together with
whether the calling thread owns `b->lock`.  `put` and `get` have the same
shape: lock, a `while` loop around `pthread_cond_wait`, the access to the
array, the increment of a position, its reset, a signal, unlock.

`pthread_mutex_lock` returns with the mutex owned by the caller;
`pthread_cond_wait` releases the mutex and suspends the caller, and returns
with the mutex owned again; `pthread_mutex_unlock` releases it.  While the
caller does not own the mutex the other threads may change the buffer, so
what it finds when it obtains the mutex is an input of the call. -/

/-- The two functions that work on the buffer. -/
inductive Fn where
  | put : Fn
  | get : Fn
deriving DecidableEq

/-- The two condition variables of `struct prodcons`. -/
inductive Cond where
  | notempty : Cond
  | notfull : Cond
deriving DecidableEq

/-- The shared fields of `struct prodcons`. -/
inductive Field where
  | buffer : Field
  | readpos : Field
  | writepos : Field
deriving DecidableEq

/-- Where a call is: the statement it executes next. -/
inductive Stmt where
  /-- The call `pthread_mutex_lock(&b->lock)`. -/
  | lock : Stmt
  /-- The test of the `while` loop. -/
  | guard : Stmt
  /-- The call of `pthread_cond_wait` on the given condition, up to the
  suspension of the caller. -/
  | wait : Cond → Stmt
  /-- Suspended in `pthread_cond_wait` on the given condition; the step is
  the return from that call. -/
  | wake : Cond → Stmt
  /-- For `put`: `b->buffer[b->writepos] = data`; for `get`:
  `data = b->buffer[b->readpos]`. -/
  | access : Stmt
  /-- For `put`: `b->writepos++`; for `get`: `b->readpos++`. -/
  | incr : Stmt
  /-- The reset `if (pos >= BUFFER_SIZE) pos = 0` of that position. -/
  | wrap : Stmt
  /-- The call of `pthread_cond_signal` on the given condition. -/
  | signal : Cond → Stmt
  /-- The call `pthread_mutex_unlock(&b->lock)`. -/
  | unlock : Stmt
  /-- The call has returned. -/
  | ret : Stmt
deriving DecidableEq

/-- The condition a function waits on: `put` on `notfull`, `get` on
`notempty`. -/
def waitCond : Fn → Cond
  | Fn.put => Cond.notfull
  | Fn.get => Cond.notempty

/-- The condition a function signals: `put` signals `notempty`, `get`
signals `notfull`. -/
def signalCond : Fn → Cond
  | Fn.put => Cond.notempty
  | Fn.get => Cond.notfull

/-- The condition of the `while` loop. -/
def guardHolds : Fn → prodcons → Bool
  | Fn.put, b => decide ((b.writepos + 1).tmod BUFFER_SIZE = b.readpos)
  | Fn.get, b => decide (b.writepos = b.readpos)

/-- The shared fields a statement reads or writes. -/
def touched : Fn → Stmt → List Field
  | _, Stmt.guard => [Field.writepos, Field.readpos]
  | Fn.put, Stmt.access => [Field.writepos, Field.buffer]
  | Fn.get, Stmt.access => [Field.readpos, Field.buffer]
  | Fn.put, Stmt.incr => [Field.writepos]
  | Fn.get, Stmt.incr => [Field.readpos]
  | Fn.put, Stmt.wrap => [Field.writepos]
  | Fn.get, Stmt.wrap => [Field.readpos]
  | _, _ => []

/-- A call in progress: the next statement, whether the calling thread owns
`b->lock`, the buffer as the call has it, and `data` (the parameter of `put`,
the local of `get`). -/
structure Call where
  pc : Stmt
  owner : Bool
  mem : prodcons
  data : Int
deriving DecidableEq

/-- A call at its entry: the lock is not owned. -/
def entry (b : prodcons) (data : Int) : Call :=
  { pc := Stmt.lock, owner := false, mem := b, data := data }

/-- One statement of a call of `put` or `get`.  `env` is the buffer as the
other threads have left it, which is what the call sees when it obtains the
mutex.  `none` when the call has returned. -/
def callStep (f : Fn) (c : Call) (env : prodcons) : Option Call :=
  match c.pc with
  | Stmt.lock => some { c with owner := true, mem := env, pc := Stmt.guard }
  | Stmt.guard =>
    if guardHolds f c.mem then some { c with pc := Stmt.wait (waitCond f) }
    else some { c with pc := Stmt.access }
  | Stmt.wait cv => some { c with owner := false, pc := Stmt.wake cv }
  | Stmt.wake _ => some { c with owner := true, mem := env, pc := Stmt.guard }
  | Stmt.access =>
    match f with
    | Fn.put =>
      some { c with
        mem := { c.mem with buffer := writeSlot c.mem.buffer c.mem.writepos c.data },
        pc := Stmt.incr }
    | Fn.get => some { c with data := readSlot c.mem.buffer c.mem.readpos, pc := Stmt.incr }
  | Stmt.incr =>
    match f with
    | Fn.put => some { c with mem := { c.mem with writepos := c.mem.writepos + 1 }, pc := Stmt.wrap }
    | Fn.get => some { c with mem := { c.mem with readpos := c.mem.readpos + 1 }, pc := Stmt.wrap }
  | Stmt.wrap =>
    match f with
    | Fn.put =>
      if c.mem.writepos ≥ BUFFER_SIZE then
        some { c with mem := { c.mem with writepos := 0 }, pc := Stmt.signal (signalCond f) }
      else some { c with pc := Stmt.signal (signalCond f) }
    | Fn.get =>
      if c.mem.readpos ≥ BUFFER_SIZE then
        some { c with mem := { c.mem with readpos := 0 }, pc := Stmt.signal (signalCond f) }
      else some { c with pc := Stmt.signal (signalCond f) }
  | Stmt.signal _ => some { c with pc := Stmt.unlock }
  | Stmt.unlock => some { c with owner := false, pc := Stmt.ret }
  | Stmt.ret => none

/-- Runs a call for as many statements as there are inputs.  The result is
the call as it then stands, and for each statement executed, in order, the
statement and whether the lock was owned when it was executed. -/
def runCall (f : Fn) (c : Call) : List prodcons → Option (Call × List (Stmt × Bool))
  | [] => some (c, [])
  | env :: envs =>
    match callStep f c env with
    | some c1 => (runCall f c1 envs).map (fun r => (r.1, (c.pc, c.owner) :: r.2))
    | none => none

/-- The statements during which the lock is owned: from the test of the loop
to `pthread_mutex_unlock`, the suspension in `pthread_cond_wait` excepted. -/
def insideLock : Stmt → Bool
  | Stmt.lock => false
  | Stmt.wake _ => false
  | Stmt.ret => false
  | _ => true

/-- Relates a call in progress to the buffer `m` it found when it last
obtained the lock: how far the statements executed since then have brought
`mem` and `data`.  Before the lock is obtained, and around a suspension,
nothing is required of `mem`. -/
def linked (f : Fn) (data : Int) (m : prodcons) (c : Call) : Prop :=
  (f = Fn.put → c.data = data) ∧
  match c.pc with
  | Stmt.lock => True
  | Stmt.wait _ => True
  | Stmt.wake _ => True
  | Stmt.guard => c.mem = m
  | Stmt.access => guardHolds f m = false ∧ c.mem = m
  | Stmt.incr =>
    guardHolds f m = false ∧
    match f with
    | Fn.put => c.mem = { m with buffer := writeSlot m.buffer m.writepos data }
    | Fn.get => c.mem = m ∧ c.data = readSlot m.buffer m.readpos
  | Stmt.wrap =>
    guardHolds f m = false ∧
    match f with
    | Fn.put =>
      c.mem = { m with buffer := writeSlot m.buffer m.writepos data, writepos := m.writepos + 1 }
    | Fn.get => c.mem = { m with readpos := m.readpos + 1 } ∧ c.data = readSlot m.buffer m.readpos
  | _ =>
    guardHolds f m = false ∧
    match f with
    | Fn.put =>
      c.mem = { m with
        buffer := writeSlot m.buffer m.writepos data,
        writepos := if m.writepos + 1 ≥ BUFFER_SIZE then 0 else m.writepos + 1 }
    | Fn.get =>
      c.mem = { m with readpos := if m.readpos + 1 ≥ BUFFER_SIZE then 0 else m.readpos + 1 } ∧
        c.data = readSlot m.buffer m.readpos

/-- The inputs of a sample call of `put`: the buffer is full when the lock is
first obtained, and has room when the call is woken. -/
def sampleCallEnvs : List prodcons :=
  [wrapOpsBuffer, zeroed, zeroed, sampleOpsBuffer] ++ List.replicate 6 zeroed

/-- The call of `put(77)` after `sampleCallEnvs`: it has returned. -/
def sampleCallFinal : Call :=
  { pc := Stmt.ret, owner := false, data := 77,
    mem :=
      { buffer := ⟨[3, 2, 1, 0, -1, -2, 77, 70, 80, 90, 100, 110, 7, 6, 5, 4], by decide⟩,
        readpos := 13, writepos := 7 } }

/-- The statements executed by that call, each with whether the lock was
owned. -/
def sampleCallTrace : List (Stmt × Bool) :=
  [(Stmt.lock, false), (Stmt.guard, true), (Stmt.wait Cond.notfull, true),
    (Stmt.wake Cond.notfull, false), (Stmt.guard, true), (Stmt.access, true),
    (Stmt.incr, true), (Stmt.wrap, true), (Stmt.signal Cond.notempty, true),
    (Stmt.unlock, true)]

/-! ## Basic facts about the array and the abstraction -/

theorem readSlot_writeSlot_same (a : Slots) (i v : Int) (h0 : 0 ≤ i) (h1 : i < 16) :
    readSlot (writeSlot a i v) i = v := by
  have hlen : i.toNat < a.val.length := by rw [a.property]; omega
  simp [readSlot, writeSlot, List.getD_eq_getElem?_getD, List.getElem?_set_self hlen]

theorem readSlot_writeSlot_ne (a : Slots) (i j v : Int) (h0 : 0 ≤ i) (h1 : 0 ≤ j)
    (hne : i ≠ j) : readSlot (writeSlot a i v) j = readSlot a j := by
  have hne2 : i.toNat ≠ j.toNat := by omega
  simp [readSlot, writeSlot, List.getD_eq_getElem?_getD, List.getElem?_set_ne hne2]

theorem length_queued (b : prodcons) : (queued b).length = occupancy b := by
  simp [queued]

theorem occupancy_lt (b : prodcons) : occupancy b < 16 := by
  unfold occupancy; omega

theorem queued_write (a : Slots) (r w w1 v : Int) (hr0 : 0 ≤ r) (hr1 : r < 16)
    (hw0 : 0 ≤ w) (hw1 : w < 16) (hne : (w + 1) % 16 ≠ r) (hw : w1 = (w + 1) % 16) :
    queued { buffer := writeSlot a w v, readpos := r, writepos := w1 }
      = queued { buffer := a, readpos := r, writepos := w } ++ [v] := by
  have hocc : ((w1 - r) % 16).toNat = ((w - r) % 16).toNat + 1 := by omega
  simp only [queued, occupancy]
  rw [hocc, List.range_succ, List.map_append]
  congr 1
  · apply List.map_congr_left
    intro i hi
    rw [List.mem_range] at hi
    apply readSlot_writeSlot_ne <;> omega
  · have hlast : (r + ((((w - r) % 16).toNat : Nat) : Int)) % 16 = w := by omega
    simp only [List.map_cons, List.map_nil]
    rw [hlast, readSlot_writeSlot_same a w v hw0 hw1]

theorem queued_read (a : Slots) (r w r1 : Int) (hr0 : 0 ≤ r) (hr1 : r < 16)
    (hw0 : 0 ≤ w) (hw1 : w < 16) (hne : w ≠ r) (hr : r1 = (r + 1) % 16) :
    queued { buffer := a, readpos := r, writepos := w }
      = readSlot a r :: queued { buffer := a, readpos := r1, writepos := w } := by
  have hocc : ((w - r) % 16).toNat = ((w - r1) % 16).toNat + 1 := by omega
  simp only [queued, occupancy]
  rw [hocc, List.range_succ_eq_map, List.map_cons, List.map_map]
  congr 1
  · congr 1; omega
  · apply List.map_congr_left
    intro i hi
    simp only [Function.comp, Nat.succ_eq_add_one]
    congr 1
    omega

theorem inRange_init (b : prodcons) : inRange (init b) := by
  simp [inRange, init, BUFFER_SIZE]

theorem queued_init (b : prodcons) : queued (init b) = [] := by
  simp [queued, occupancy, init]

theorem tmod_succ (w : Int) (h0 : 0 ≤ w) : (w + 1).tmod BUFFER_SIZE = (w + 1) % 16 := by
  unfold BUFFER_SIZE
  exact Int.tmod_eq_emod (by omega) (by omega)

/-- What a completed `put` does to a state whose positions index the array. -/
theorem put_spec (b b1 : prodcons) (v : Int) (hb : inRange b)
    (h : put b v = Outcome.done b1) :
    (b.writepos + 1) % 16 ≠ b.readpos ∧ b1.buffer = writeSlot b.buffer b.writepos v ∧
      b1.readpos = b.readpos ∧ b1.writepos = (b.writepos + 1) % 16 ∧
      inRange b1 ∧ queued b1 = queued b ++ [v] := by
  obtain ⟨hr0, hr1, hw0, hw1⟩ := hb
  simp only [BUFFER_SIZE] at hr1 hw1
  unfold put at h
  rw [tmod_succ _ hw0] at h
  simp only [BUFFER_SIZE] at h
  split_ifs at h with h1 h2 h3
  · cases h
    have hw : (0 : Int) = (b.writepos + 1) % 16 := by omega
    refine ⟨h1, rfl, rfl, by simp only; omega, ?_, ?_⟩
    · simp only [inRange, BUFFER_SIZE]; omega
    · exact queued_write b.buffer b.readpos b.writepos 0 v hr0 hr1 hw0 hw1 h1 hw
  · cases h
    have hw : b.writepos + 1 = (b.writepos + 1) % 16 := by omega
    refine ⟨h1, rfl, rfl, by simp only; omega, ?_, ?_⟩
    · simp only [inRange, BUFFER_SIZE]; omega
    · exact queued_write b.buffer b.readpos b.writepos _ v hr0 hr1 hw0 hw1 h1 hw

/-- What a completed `get` does to a state whose positions index the array. -/
theorem get_spec (b b1 : prodcons) (d : Int) (hb : inRange b)
    (h : get b = Outcome.done (d, b1)) :
    b.writepos ≠ b.readpos ∧ d = readSlot b.buffer b.readpos ∧ b1.buffer = b.buffer ∧
      b1.readpos = (b.readpos + 1) % 16 ∧ b1.writepos = b.writepos ∧
      inRange b1 ∧ queued b = d :: queued b1 := by
  obtain ⟨hr0, hr1, hw0, hw1⟩ := hb
  simp only [BUFFER_SIZE] at hr1 hw1
  unfold get at h
  simp only [BUFFER_SIZE] at h
  split_ifs at h with h1 h2 h3
  · cases h
    have hw : (0 : Int) = (b.readpos + 1) % 16 := by omega
    refine ⟨h1, rfl, rfl, by simp only; omega, rfl, ?_, ?_⟩
    · simp only [inRange, BUFFER_SIZE]; omega
    · exact queued_read b.buffer b.readpos b.writepos 0 hr0 hr1 hw0 hw1 h1 hw
  · cases h
    have hw : b.readpos + 1 = (b.readpos + 1) % 16 := by omega
    refine ⟨h1, rfl, rfl, by simp only; omega, rfl, ?_, ?_⟩
    · simp only [inRange, BUFFER_SIZE]; omega
    · exact queued_read b.buffer b.readpos b.writepos _ hr0 hr1 hw0 hw1 h1 hw

/-- In range, `put` never faults: it waits exactly when 15 items are queued. -/
theorem put_cases (b : prodcons) (v : Int) (hb : inRange b) :
    (occupancy b = 15 ∧ put b v = Outcome.wait) ∨
      (occupancy b < 15 ∧ ∃ b1, put b v = Outcome.done b1) := by
  obtain ⟨hr0, hr1, hw0, hw1⟩ := hb
  simp only [BUFFER_SIZE] at hr1 hw1
  unfold put
  rw [tmod_succ _ hw0]
  simp only [BUFFER_SIZE, occupancy]
  by_cases h1 : (b.writepos + 1) % 16 = b.readpos
  · left; rw [if_pos h1]; exact ⟨by omega, rfl⟩
  · right; rw [if_neg h1, if_pos ⟨hw0, hw1⟩]; exact ⟨by omega, _, rfl⟩

/-- In range, `get` never faults: it waits exactly when nothing is queued. -/
theorem get_cases (b : prodcons) (hb : inRange b) :
    (occupancy b = 0 ∧ get b = Outcome.wait) ∨
      (0 < occupancy b ∧ ∃ d b1, get b = Outcome.done (d, b1)) := by
  obtain ⟨hr0, hr1, hw0, hw1⟩ := hb
  simp only [BUFFER_SIZE] at hr1 hw1
  unfold get
  simp only [BUFFER_SIZE, occupancy]
  by_cases h1 : b.writepos = b.readpos
  · left; rw [if_pos h1]; exact ⟨by omega, rfl⟩
  · right; rw [if_neg h1, if_pos ⟨hr0, hr1⟩]; exact ⟨by omega, _, _, rfl⟩

/-! ## The invariant of the running program -/

theorem upto_succ (k : Nat) : upto (k + 1) = upto k ++ [(k : Int)] := by
  simp [upto, List.range_succ]

theorem length_upto (k : Nat) : (upto k).length = k := by
  simp [upto]

theorem mem_upto (k : Nat) (x : Int) : x ∈ upto k ↔ 0 ≤ x ∧ x < k := by
  simp only [upto, List.mem_map, List.mem_range]
  constructor
  · rintro ⟨i, hi, rfl⟩; omega
  · rintro ⟨h0, h1⟩; exact ⟨x.toNat, by omega, by omega⟩

theorem over_not_mem_upto (k : Nat) : OVER ∉ upto k := by
  rw [mem_upto]; unfold OVER; omega

theorem Inv_start (running : Int → Bool) : Inv running start := by
  refine ⟨inRange_init _, ?_, ?_, ?_, ?_, ?_, ?_⟩
  · simp [start, queued_init]
  · simp [start]
  · simp [start]
  · intro m hm; simp [start] at hm; omega
  · simp [start, upto]
  · simp [start]

theorem Inv_producer (running : Int → Bool) (s s1 : System) (hs : Inv running s)
    (h : producer running s = some s1) : Inv running s1 := by
  obtain ⟨buf, ppc, n, cpc, printed, puts, gets⟩ := s
  obtain ⟨hr, hq, hn0, hn1, hrun, hp, hc⟩ := hs
  simp only at hr hq hn0 hn1 hrun hp hc
  cases ppc
  · -- at the loop head
    simp only [producer] at h
    split_ifs at h with h1 h2
    · cases h
      refine ⟨hr, hq, hn0, hn1, hrun, ⟨fun _ => ?_, hp⟩, hc⟩
      simpa using h2
    · cases h
      refine ⟨hr, hq, hn0, hn1, hrun, ⟨h1, ?_, hp⟩, hc⟩
      simpa using h2
    · cases h
      exact ⟨hr, hq, hn0, hn1, hrun, ⟨fun h3 => absurd h3 h1, hp⟩, hc⟩
  · -- the call `put(&buffer, n)`
    simp only [producer] at h
    obtain ⟨hlt, hrn, hputs⟩ := hp
    cases hput : put buf n with
    | done b =>
      rw [hput] at h
      cases h
      obtain ⟨-, -, -, -, hr1, hq1⟩ := put_spec buf b n hr hput
      refine ⟨hr1, ?_, by simp only; omega, by simp only; omega, ?_, ?_, hc⟩
      · simp only [hq1, hq, List.append_assoc]
      · intro m hm
        simp only at hm
        by_cases hmn : (m : Int) = n
        · rw [hmn]; exact hrn
        · exact hrun m (by omega)
      · simp only
        have e1 : (n + 1).toNat = n.toNat + 1 := by omega
        have e2 : ((n.toNat : Nat) : Int) = n := by omega
        rw [e1, upto_succ, e2, hputs]
    | wait => rw [hput] at h; cases h
    | fault => rw [hput] at h; cases h
  · -- the call `put(&buffer, OVER)`
    simp only [producer] at h
    obtain ⟨hstop, hputs⟩ := hp
    cases hput : put buf OVER with
    | done b =>
      rw [hput] at h
      cases h
      obtain ⟨-, -, -, -, hr1, hq1⟩ := put_spec buf b OVER hr hput
      refine ⟨hr1, ?_, hn0, hn1, hrun, ⟨hstop, ?_⟩, hc⟩
      · simp only [hq1, hq, List.append_assoc]
      · simp only [hputs]
    | wait => rw [hput] at h; cases h
    | fault => rw [hput] at h; cases h
  · simp [producer] at h

theorem Inv_consumer (running : Int → Bool) (s s1 : System) (hs : Inv running s)
    (h : consumer s = some s1) : Inv running s1 := by
  obtain ⟨buf, ppc, n, cpc, printed, puts, gets⟩ := s
  obtain ⟨hr, hq, hn0, hn1, hrun, hp, hc⟩ := hs
  simp only at hr hq hn0 hn1 hrun hp hc
  cases cpc
  · simp only [consumer] at h
    obtain ⟨hpr, hno⟩ := hc
    cases hget : get buf with
    | done r =>
      obtain ⟨d, b⟩ := r
      rw [hget] at h
      obtain ⟨-, -, -, -, -, hr1, hq1⟩ := get_spec buf b d hr hget
      have hq2 : puts = (gets ++ [d]) ++ queued b := by
        rw [hq, hq1]; simp
      simp only at h
      split_ifs at h with hd
      · cases h
        refine ⟨hr1, hq2, hn0, hn1, hrun, hp, ?_, ?_⟩
        · simp only [hpr, hd]
        · simpa only [hpr] using hno
      · cases h
        refine ⟨hr1, hq2, hn0, hn1, hrun, hp, ?_, ?_⟩
        · simp only [hpr]
        · simp only [List.mem_append, List.mem_singleton, not_or]
          exact ⟨hno, fun e => hd e.symm⟩
    | wait => rw [hget] at h; cases h
    | fault => rw [hget] at h; cases h
  · simp [consumer] at h

theorem Inv_step (running : Int → Bool) (s s1 : System) (t : Thread) (hs : Inv running s)
    (h : step running s t = some s1) : Inv running s1 := by
  cases t
  · exact Inv_producer running s s1 hs h
  · exact Inv_consumer running s s1 hs h

theorem Inv_exec (running : Int → Bool) (sched : List Thread) :
    ∀ s s1 : System, Inv running s → exec running s sched = some s1 → Inv running s1 := by
  induction sched with
  | nil => intro s s1 hs h; simp only [exec] at h; cases h; exact hs
  | cons t ts ih =>
    intro s s1 hs h
    simp only [exec] at h
    cases hst : step running s t with
    | none => rw [hst] at h; cases h
    | some s2 =>
      rw [hst] at h
      exact ih s2 s1 (Inv_step running s s2 t hs hst) h

/-! ## Sequences of operations on the buffer -/

theorem runOps_spec (ops : List Op) :
    ∀ (b : prodcons) (r : prodcons × List Int), inRange b → runOps b ops = some r →
      inRange r.1 ∧ queued b ++ putsOf ops = r.2 ++ queued r.1 := by
  induction ops with
  | nil =>
    intro b r hb h
    simp only [runOps, Option.some.injEq] at h
    subst h
    exact ⟨hb, by simp [putsOf]⟩
  | cons op ops ih =>
    intro b r hb h
    cases op with
    | put v =>
      simp only [runOps] at h
      cases hput : put b v with
      | done b1 =>
        rw [hput] at h
        obtain ⟨-, -, -, -, hb1, hq1⟩ := put_spec b b1 v hb hput
        obtain ⟨hr, hq⟩ := ih b1 r hb1 h
        refine ⟨hr, ?_⟩
        rw [← hq, hq1]
        simp [putsOf]
      | wait => rw [hput] at h; cases h
      | fault => rw [hput] at h; cases h
    | get =>
      simp only [runOps] at h
      cases hget : get b with
      | done p =>
        obtain ⟨d, b1⟩ := p
        rw [hget] at h
        simp only at h
        obtain ⟨-, -, -, -, -, hb1, hq1⟩ := get_spec b b1 d hb hget
        cases hrest : runOps b1 ops with
        | none => rw [hrest] at h; cases h
        | some r1 =>
          rw [hrest] at h
          simp only [Option.map_some', Option.some.injEq] at h
          subst h
          obtain ⟨hr, hq⟩ := ih b1 r1 hb1 hrest
          refine ⟨hr, ?_⟩
          simp only [putsOf, hq1, List.cons_append, hq]
      | wait => rw [hget] at h; cases h
      | fault => rw [hget] at h; cases h

theorem runOps_puts (vs : List Int) :
    ∀ b : prodcons, inRange b → occupancy b + vs.length ≤ 15 →
      ∃ b1, runOps b (vs.map Op.put) = some (b1, []) ∧ inRange b1 ∧
        occupancy b1 = occupancy b + vs.length := by
  induction vs with
  | nil => intro b hb _; exact ⟨b, rfl, hb, rfl⟩
  | cons v vs ih =>
    intro b hb hocc
    simp only [List.length_cons] at hocc
    rcases put_cases b v hb with ⟨hfull, -⟩ | ⟨-, b1, hput⟩
    · omega
    · obtain ⟨-, -, -, -, hb1, hq1⟩ := put_spec b b1 v hb hput
      have hlen : occupancy b1 = occupancy b + 1 := by
        rw [← length_queued, ← length_queued, hq1]; simp
      obtain ⟨b2, hrun, hb2, hocc2⟩ := ih b1 hb1 (by omega)
      refine ⟨b2, ?_, hb2, ?_⟩
      · simp only [List.map_cons, runOps, hput, hrun]
      · simp only [List.length_cons]; omega

/-! ## Facts about complete runs -/

theorem append_singleton_split (x : Int) (a b q : List Int) (ha : x ∉ a)
    (h : a ++ [x] = b ++ [x] ++ q) : q = [] ∧ a = b := by
  rcases List.eq_nil_or_concat q with hq | ⟨q1, y, hq⟩
  · subst hq
    simp only [List.append_nil] at h
    exact ⟨rfl, List.append_inj_left' h rfl⟩
  · subst hq
    rw [List.concat_eq_append, ← List.append_assoc] at h
    have h1 := List.append_inj_left' h rfl
    exact absurd (h1 ▸ (by simp : x ∈ b ++ [x] ++ q1)) ha

theorem occupancy_zero (b : prodcons) (hb : inRange b) (h : occupancy b = 0) :
    b.readpos = b.writepos := by
  obtain ⟨hr0, hr1, hw0, hw1⟩ := hb
  simp only [BUFFER_SIZE] at hr1 hw1
  unfold occupancy at h
  omega

theorem cancelPoint_eq (running : Int → Bool) (k : Nat) (hk : k ≤ 1000)
    (hbefore : ∀ m : Nat, m < k → running (m : Int) = true)
    (hat : k < 1000 → running (k : Int) = false) : cancelPoint running = k := by
  unfold cancelPoint
  rcases Nat.lt_or_ge k 1000 with hlt | hge
  · rw [List.findIdx_eq (by simpa using hlt)]
    refine ⟨by simp [hat hlt], fun j hj => ?_⟩
    simp [hbefore j hj]
  · have hk2 : k = 1000 := by omega
    subst hk2
    have h := (@List.findIdx_eq_length Nat (fun (i : Nat) => !running (i : Int))
      (List.range 1000)).mpr
      (by intro x hx; rw [List.mem_range] at hx; simp [hbefore x hx])
    simpa using h

/-- In a state where both threads have returned, everything is determined by
the value of `n` at which the producer left its loop. -/
theorem finished_spec (running : Int → Bool) (s : System) (hs : Inv running s)
    (hf : finished s) :
    s.n.toNat = cancelPoint running ∧ s.puts = upto s.n.toNat ++ [OVER] ∧
      s.gets = upto s.n.toNat ++ [OVER] ∧ s.printed = upto s.n.toNat ∧
      queued s.buffer = [] ∧ s.buffer.readpos = s.buffer.writepos := by
  obtain ⟨buf, ppc, n, cpc, printed, puts, gets⟩ := s
  obtain ⟨hr, hq, hn0, hn1, hrun, hp, hc⟩ := hs
  obtain ⟨hf1, hf2⟩ := hf
  simp only at hr hq hn0 hn1 hrun hp hc hf1 hf2
  subst hf1 hf2
  simp only at hp hc
  obtain ⟨hstop, hputs⟩ := hp
  obtain ⟨hgets, -⟩ := hc
  have hk : n.toNat = cancelPoint running := by
    symm
    apply cancelPoint_eq running n.toNat (by omega)
    · intro m hm; exact hrun m (by omega)
    · intro hlt
      have e : ((n.toNat : Nat) : Int) = n := by omega
      rw [e]; exact hstop (by omega)
  rw [hputs, hgets] at hq
  obtain ⟨hnil, hpr⟩ := append_singleton_split OVER _ _ _ (over_not_mem_upto _) hq
  refine ⟨hk, hputs, ?_, hpr.symm, hnil, ?_⟩
  · simp only [hgets, hpr]
  · apply occupancy_zero buf hr
    rw [← length_queued, hnil]; rfl

/-! ## Progress and termination -/

theorem stepsTaken_step (running : Int → Bool) (s s1 : System) (t : Thread)
    (hs : Inv running s) (h : step running s t = some s1) :
    stepsTaken s1 = stepsTaken s + 1 := by
  obtain ⟨buf, ppc, n, cpc, printed, puts, gets⟩ := s
  obtain ⟨-, -, hn0, -, -, -, -⟩ := hs
  simp only at hn0
  cases t
  · cases ppc
    · simp only [step, producer] at h
      split_ifs at h <;> cases h <;> simp only [stepsTaken, producerSteps] <;> omega
    · simp only [step, producer] at h
      cases hput : put buf n with
      | done b =>
        rw [hput] at h; cases h
        simp only [stepsTaken, producerSteps]; omega
      | wait => rw [hput] at h; cases h
      | fault => rw [hput] at h; cases h
    · simp only [step, producer] at h
      cases hput : put buf OVER with
      | done b =>
        rw [hput] at h; cases h
        simp only [stepsTaken, producerSteps]; omega
      | wait => rw [hput] at h; cases h
      | fault => rw [hput] at h; cases h
    · simp [step, producer] at h
  · cases cpc
    · simp only [step, consumer] at h
      cases hget : get buf with
      | done r =>
        obtain ⟨d, b⟩ := r
        rw [hget] at h
        simp only at h
        split_ifs at h <;> cases h <;>
          simp only [stepsTaken, producerSteps, List.length_append, List.length_singleton] <;>
          omega
      | wait => rw [hget] at h; cases h
      | fault => rw [hget] at h; cases h
    · simp [step, consumer] at h

theorem Inv_bounds (running : Int → Bool) (s : System) (hs : Inv running s) :
    stepsTaken s ≤ 3003 ∧ s.puts.length ≤ 1001 ∧ s.gets.length ≤ 1001 := by
  obtain ⟨buf, ppc, n, cpc, printed, puts, gets⟩ := s
  obtain ⟨-, hq, hn0, hn1, -, hp, -⟩ := hs
  simp only at hq hn0 hn1 hp
  have hlen : gets.length ≤ puts.length := by rw [hq]; simp
  simp only [stepsTaken, producerSteps]
  cases ppc
  · simp only at hp
    have h1 : puts.length = n.toNat := by rw [hp, length_upto]
    simp only; omega
  · obtain ⟨-, -, hp⟩ := hp
    have h1 : puts.length = n.toNat := by rw [hp, length_upto]
    simp only; omega
  · obtain ⟨-, hp⟩ := hp
    have h1 : puts.length = n.toNat := by rw [hp, length_upto]
    simp only; omega
  · obtain ⟨-, hp⟩ := hp
    have h1 : puts.length = n.toNat + 1 := by
      rw [hp, List.length_append, length_upto]; rfl
    simp only; omega

theorem stepsTaken_exec (running : Int → Bool) (sched : List Thread) :
    ∀ s s1 : System, Inv running s → exec running s sched = some s1 →
      stepsTaken s1 = stepsTaken s + sched.length := by
  induction sched with
  | nil => intro s s1 _ h; simp only [exec] at h; cases h; rfl
  | cons t ts ih =>
    intro s s1 hs h
    simp only [exec] at h
    cases hst : step running s t with
    | none => rw [hst] at h; cases h
    | some s2 =>
      rw [hst] at h
      simp only at h
      rw [ih s2 s1 (Inv_step running s s2 t hs hst) h,
        stepsTaken_step running s s2 t hs hst, List.length_cons]
      omega

/-- A reachable state in which neither thread can move is one where both have
returned. -/
theorem progress (running : Int → Bool) (s : System) (hs : Inv running s)
    (hstuck : step running s Thread.prod = none ∧ step running s Thread.cons = none) :
    finished s := by
  obtain ⟨buf, ppc, n, cpc, printed, puts, gets⟩ := s
  obtain ⟨hr, hq, hn0, hn1, hrun, hp, hc⟩ := hs
  obtain ⟨hP, hC⟩ := hstuck
  simp only at hr hq hn0 hn1 hrun hp hc
  -- a producer that has not put `OVER` and a consumer that has returned exclude each other
  have hno_over : puts = upto n.toNat → cpc = ConsumerPc.call := by
    intro hputs
    cases cpc
    · rfl
    · exfalso
      obtain ⟨hg, -⟩ := hc
      apply over_not_mem_upto n.toNat
      rw [← hputs, hq, hg]; simp
  -- a blocked `put` leaves the consumer able to move
  have hfull : ∀ v, put buf v = Outcome.wait → cpc = ConsumerPc.call → False := by
    intro v hw hcpc
    subst hcpc
    rcases put_cases buf v hr with ⟨hocc, -⟩ | ⟨-, b1, hd⟩
    · rcases get_cases buf hr with ⟨h0, -⟩ | ⟨-, d, b1, hg⟩
      · omega
      · simp only [step, consumer, hg] at hC
        split_ifs at hC
    · rw [hw] at hd; cases hd
  have hput : ∀ v, put buf v = Outcome.wait ∨ ∃ b1, put buf v = Outcome.done b1 := by
    intro v
    rcases put_cases buf v hr with ⟨-, h⟩ | ⟨-, h⟩
    · exact Or.inl h
    · exact Or.inr h
  cases ppc
  · simp only [step, producer] at hP
    split_ifs at hP
  · exfalso
    obtain ⟨-, -, hputs⟩ := hp
    rcases hput n with hw | ⟨b1, hd⟩
    · exact hfull n hw (hno_over hputs)
    · simp [step, producer, hd] at hP
  · exfalso
    obtain ⟨-, hputs⟩ := hp
    rcases hput OVER with hw | ⟨b1, hd⟩
    · exact hfull OVER hw (hno_over hputs)
    · simp [step, producer, hd] at hP
  · cases cpc
    · exfalso
      obtain ⟨-, hputs⟩ := hp
      obtain ⟨-, hno⟩ := hc
      rcases get_cases buf hr with ⟨h0, -⟩ | ⟨-, d, b1, hg⟩
      · have hnil : queued buf = [] := by
          apply List.eq_nil_of_length_eq_zero; rw [length_queued]; exact h0
        apply hno
        rw [hnil, List.append_nil] at hq
        rw [← hq, hputs]; simp
      · simp only [step, consumer, hg] at hC
        split_ifs at hC
    · exact ⟨rfl, rfl⟩

theorem finished_stuck (running : Int → Bool) (s : System) (hf : finished s) :
    step running s Thread.prod = none ∧ step running s Thread.cons = none := by
  obtain ⟨h1, h2⟩ := hf
  simp [step, producer, consumer, h1, h2]

theorem exists_step (running : Int → Bool) (s : System) (hs : Inv running s)
    (hf : ¬ finished s) : ∃ t s1, step running s t = some s1 := by
  by_contra hne
  apply hf
  apply progress running s hs
  constructor
  · cases h : step running s Thread.prod with
    | none => rfl
    | some s1 => exact absurd ⟨_, _, h⟩ hne
  · cases h : step running s Thread.cons with
    | none => rfl
    | some s1 => exact absurd ⟨_, _, h⟩ hne

/-- Every reachable state can be driven to one where both threads have
returned. -/
theorem completion (running : Int → Bool) (k : Nat) :
    ∀ s : System, Inv running s → 3003 - stepsTaken s ≤ k →
      ∃ rest s1, exec running s rest = some s1 ∧ finished s1 := by
  induction k with
  | zero =>
    intro s hs hk
    by_cases hf : finished s
    · exact ⟨[], s, rfl, hf⟩
    · exfalso
      obtain ⟨t, s1, hst⟩ := exists_step running s hs hf
      have h1 := stepsTaken_step running s s1 t hs hst
      have h2 := (Inv_bounds running s1 (Inv_step running s s1 t hs hst)).1
      omega
  | succ k ih =>
    intro s hs hk
    by_cases hf : finished s
    · exact ⟨[], s, rfl, hf⟩
    · obtain ⟨t, s1, hst⟩ := exists_step running s hs hf
      have hs1 := Inv_step running s s1 t hs hst
      have h1 := stepsTaken_step running s s1 t hs hst
      obtain ⟨rest, s2, hrest, hfin⟩ := ih s1 hs1 (by omega)
      exact ⟨t :: rest, s2, by simp only [exec, hst, hrest], hfin⟩

theorem le_cancelPoint (running : Int → Bool) (k : Nat) (hk : k ≤ 1000)
    (hbefore : ∀ m : Nat, m < k → running (m : Int) = true) : k ≤ cancelPoint running := by
  by_contra hlt
  have hlt2 : cancelPoint running < k := by omega
  have hlen : (List.range 1000).findIdx (fun (i : Nat) => !running (i : Int))
      < (List.range 1000).length := by
    have : cancelPoint running < 1000 := by omega
    simpa [cancelPoint] using this
  have hp := List.findIdx_getElem (w := hlen)
  have ht := hbefore (cancelPoint running) hlt2
  simp only [List.getElem_range] at hp
  unfold cancelPoint at ht
  simp [ht] at hp

theorem cancelPoint_le (running : Int → Bool) : cancelPoint running ≤ 1000 := by
  have h := @List.findIdx_le_length Nat (fun (i : Nat) => !running (i : Int))
    (List.range 1000)
  simpa [cancelPoint] using h

theorem upto_prefix (k m : Nat) (h : k ≤ m) : upto k <+: upto m := by
  induction m, h using Nat.le_induction with
  | base => exact List.prefix_refl _
  | succ m _ ih =>
    rw [upto_succ]
    exact ih.trans (List.prefix_append _ _)

/-- The puts made so far, by control point of the producer. -/
theorem puts_spec (running : Int → Bool) (s : System) (hs : Inv running s) :
    (s.ppc = ProducerPc.returned →
      s.n.toNat = cancelPoint running ∧ s.puts = upto s.n.toNat ++ [OVER]) ∧
    (s.ppc ≠ ProducerPc.returned →
      s.n.toNat ≤ cancelPoint running ∧ s.puts = upto s.n.toNat) := by
  obtain ⟨buf, ppc, n, cpc, printed, puts, gets⟩ := s
  obtain ⟨-, -, hn0, hn1, hrun, hp, -⟩ := hs
  simp only at hn0 hn1 hrun hp
  have hle : n.toNat ≤ cancelPoint running :=
    le_cancelPoint running n.toNat (by omega) (fun m hm => hrun m (by omega))
  have e : ((n.toNat : Nat) : Int) = n := by omega
  cases ppc
  · exact ⟨(fun h => by cases h), fun _ => ⟨hle, hp⟩⟩
  · exact ⟨(fun h => by cases h), fun _ => ⟨hle, hp.2.2⟩⟩
  · exact ⟨(fun h => by cases h), fun _ => ⟨hle, hp.2⟩⟩
  · refine ⟨fun _ => ⟨?_, hp.2⟩, fun h => absurd rfl h⟩
    symm
    apply cancelPoint_eq running n.toNat (by omega) (fun m hm => hrun m (by omega))
    intro hlt
    rw [e]; exact hp.1 (by omega)

/-! ## The round-robin run -/

theorem put_empty (a : Slots) (p v : Int) (h0 : 0 ≤ p) (h1 : p < 16) :
    put { buffer := a, readpos := p, writepos := p } v
      = Outcome.done { buffer := writeSlot a p v, readpos := p, writepos := (p + 1) % 16 } := by
  unfold put
  simp only
  rw [tmod_succ _ h0, if_neg (by omega), if_pos ⟨h0, by simpa [BUFFER_SIZE] using h1⟩]
  simp only [BUFFER_SIZE]
  split_ifs with h
  · have e : (p + 1) % 16 = 0 := by omega
    rw [e]
  · have e : (p + 1) % 16 = p + 1 := by omega
    rw [e]

theorem get_single (a : Slots) (p v : Int) (h0 : 0 ≤ p) (h1 : p < 16) :
    get { buffer := writeSlot a p v, readpos := p, writepos := (p + 1) % 16 }
      = Outcome.done
          (v, { buffer := writeSlot a p v, readpos := (p + 1) % 16, writepos := (p + 1) % 16 }) := by
  unfold get
  simp only
  rw [if_neg (by omega), if_pos ⟨h0, by simpa [BUFFER_SIZE] using h1⟩,
    readSlot_writeSlot_same a p v h0 h1]
  simp only [BUFFER_SIZE]
  split_ifs with h
  · have e : (p + 1) % 16 = 0 := by omega
    rw [e]
  · have e : (p + 1) % 16 = p + 1 := by omega
    rw [e]

theorem exec_append (running : Int → Bool) (xs ys : List Thread) :
    ∀ s : System, exec running s (xs ++ ys)
      = (exec running s xs).bind (fun s1 => exec running s1 ys) := by
  induction xs with
  | nil => intro s; rfl
  | cons t ts ih =>
    intro s
    simp only [List.cons_append, exec]
    cases step running s t with
    | none => rfl
    | some s1 => exact ih s1

theorem round_step (k : Nat) (hk : k < 1000) :
    exec neverStop (roundState k) [Thread.prod, Thread.prod, Thread.cons]
      = some (roundState (k + 1)) := by
  have hlt : (k : Int) < 1000 := by omega
  have hne : (k : Int) ≠ OVER := by unfold OVER; omega
  have hpos : (((k + 1 : Nat) : Int)) % 16 = ((k : Int) % 16 + 1) % 16 := by omega
  have hput := put_empty (slotsAfter k) ((k : Int) % 16) (k : Int) (by omega) (by omega)
  have hget := get_single (slotsAfter k) ((k : Int) % 16) (k : Int) (by omega) (by omega)
  have h1 : step neverStop (roundState k) Thread.prod
      = some { roundState k with ppc := ProducerPc.call } := by
    simp only [step, producer, roundState, neverStop, if_pos hlt]
    rfl
  have h2 : step neverStop { roundState k with ppc := ProducerPc.call } Thread.prod
      = some { roundState k with
          buffer := { buffer := writeSlot (slotsAfter k) ((k : Int) % 16) (k : Int),
                      readpos := (k : Int) % 16, writepos := ((k : Int) % 16 + 1) % 16 },
          puts := upto k ++ [(k : Int)], n := (k : Int) + 1 } := by
    simp only [step, producer, roundState]
    rw [hput]
  have h3 : step neverStop { roundState k with
          buffer := { buffer := writeSlot (slotsAfter k) ((k : Int) % 16) (k : Int),
                      readpos := (k : Int) % 16, writepos := ((k : Int) % 16 + 1) % 16 },
          puts := upto k ++ [(k : Int)], n := (k : Int) + 1 } Thread.cons
      = some (roundState (k + 1)) := by
    simp only [step, consumer, roundState]
    rw [hget]
    simp only [if_neg hne, upto_succ, slotsAfter, hpos]
    rfl
  simp only [exec, h1, h2, h3]

theorem rounds_succ (k : Nat) :
    rounds (k + 1) = rounds k ++ [Thread.prod, Thread.prod, Thread.cons] := by
  simp [rounds, List.replicate_succ']

theorem exec_rounds (k : Nat) (hk : k ≤ 1000) :
    exec neverStop start (rounds k) = some (roundState k) := by
  induction k with
  | zero => decide
  | succ k ih =>
    rw [rounds_succ, exec_append, ih (by omega), Option.some_bind]
    exact round_step k (by omega)

theorem exec_last_round :
    exec neverStop (roundState 1000) [Thread.prod, Thread.prod, Thread.cons]
      = some fullFinal := by
  decide!

/-- The full run under the round-robin schedule. -/
theorem exec_full : exec neverStop start (rounds 1001) = some fullFinal := by
  have hsplit : rounds 1001 = rounds 1000 ++ [Thread.prod, Thread.prod, Thread.cons] :=
    rounds_succ 1000
  rw [hsplit, exec_append, exec_rounds 1000 (Nat.le_refl _), Option.some_bind]
  exact exec_last_round

/-! ## The effect of one call -/

theorem put_done (b : prodcons) (v : Int) (h0 : 0 ≤ b.writepos) (h1 : b.writepos < 16)
    (hnf : (b.writepos + 1).tmod BUFFER_SIZE ≠ b.readpos) :
    put b v = Outcome.done
      { buffer := writeSlot b.buffer b.writepos v, readpos := b.readpos,
        writepos := (b.writepos + 1) % 16 } := by
  unfold put
  rw [if_neg hnf, if_pos ⟨h0, by simpa [BUFFER_SIZE] using h1⟩]
  simp only [BUFFER_SIZE]
  split_ifs with h
  · have e : (b.writepos + 1) % 16 = 0 := by omega
    rw [e]
  · have e : (b.writepos + 1) % 16 = b.writepos + 1 := by omega
    rw [e]

theorem get_done (b : prodcons) (h0 : 0 ≤ b.readpos) (h1 : b.readpos < 16)
    (hne : b.writepos ≠ b.readpos) :
    get b = Outcome.done
      (readSlot b.buffer b.readpos,
        { buffer := b.buffer, readpos := (b.readpos + 1) % 16, writepos := b.writepos }) := by
  unfold get
  rw [if_neg hne, if_pos ⟨h0, by simpa [BUFFER_SIZE] using h1⟩]
  simp only [BUFFER_SIZE]
  split_ifs with h
  · have e : (b.readpos + 1) % 16 = 0 := by omega
    rw [e]
  · have e : (b.readpos + 1) % 16 = b.readpos + 1 := by omega
    rw [e]

theorem runOps_pairs (vs : List Int) :
    ∀ (a : Slots) (p : Int), 0 ≤ p → p < 16 →
      ∃ a1, runOps { buffer := a, readpos := p, writepos := p } (putGetPairs vs)
        = some ({ buffer := a1, readpos := (p + vs.length) % 16,
                  writepos := (p + vs.length) % 16 }, vs) := by
  induction vs with
  | nil =>
    intro a p h0 h1
    refine ⟨a, ?_⟩
    have e : (p + (([] : List Int).length : Int)) % 16 = p := by
      simp only [List.length_nil]; omega
    rw [e]; rfl
  | cons v vs ih =>
    intro a p h0 h1
    obtain ⟨a1, hrun⟩ := ih (writeSlot a p v) ((p + 1) % 16) (by omega) (by omega)
    have e : ((p + 1) % 16 + (vs.length : Int)) % 16
        = (p + ((v :: vs).length : Int)) % 16 := by
      simp only [List.length_cons]; omega
    rw [e] at hrun
    refine ⟨a1, ?_⟩
    simp only [putGetPairs, runOps, put_empty a p v h0 h1, get_single a p v h0 h1, hrun,
      Option.map_some']

/-! ## The consumer's loop -/

theorem consumerLoop_spec (ds : List Int) :
    (consumerLoop ds).1 = beforeOver ds ∧
      (consumerLoop ds).2.1 = (if OVER ∈ ds then (beforeOver ds).length + 1 else ds.length) ∧
      (consumerLoop ds).2.2 = (if OVER ∈ ds then ConsumerPc.returned else ConsumerPc.call) := by
  induction ds with
  | nil => simp [consumerLoop, beforeOver]
  | cons d ds ih =>
    obtain ⟨ih1, ih2, ih3⟩ := ih
    by_cases hd : d = OVER
    · simp [consumerLoop, beforeOver, hd]
    · have hd2 : ¬ OVER = d := fun e => hd e.symm
      have hmem : OVER ∈ d :: ds ↔ OVER ∈ ds := by simp [hd2]
      simp only [consumerLoop, if_neg hd, ih1, ih2, ih3, hmem]
      refine ⟨?_, ?_, trivial⟩
      · simp [beforeOver, List.takeWhile_cons, hd]
      · have e : beforeOver (d :: ds) = d :: beforeOver ds := by
          simp [beforeOver, List.takeWhile_cons, hd]
        rw [e]
        split_ifs <;> simp

theorem over_not_mem_beforeOver (ds : List Int) : OVER ∉ beforeOver ds := by
  intro h
  have := List.mem_takeWhile_imp h
  simp at this

theorem producer_frame (running : Int → Bool) (s s1 : System)
    (h : producer running s = some s1) :
    s1.gets = s.gets ∧ s1.printed = s.printed ∧ s1.cpc = s.cpc := by
  obtain ⟨buf, ppc, n, cpc, printed, puts, gets⟩ := s
  cases ppc
  · simp only [producer] at h
    split_ifs at h <;> cases h <;> exact ⟨rfl, rfl, rfl⟩
  · simp only [producer] at h
    cases hput : put buf n with
    | done b => rw [hput] at h; cases h; exact ⟨rfl, rfl, rfl⟩
    | wait => rw [hput] at h; cases h
    | fault => rw [hput] at h; cases h
  · simp only [producer] at h
    cases hput : put buf OVER with
    | done b => rw [hput] at h; cases h; exact ⟨rfl, rfl, rfl⟩
    | wait => rw [hput] at h; cases h
    | fault => rw [hput] at h; cases h
  · simp [producer] at h

/-- What one step of `consumer` does with the value its `get` returns. -/
theorem consumer_step_spec (s s1 : System) (h : consumer s = some s1) :
    s.cpc = ConsumerPc.call ∧ ∃ d b, get s.buffer = Outcome.done (d, b) ∧
      s1.gets = s.gets ++ [d] ∧
      s1.printed = (if d = OVER then s.printed else s.printed ++ [d]) ∧
      s1.cpc = (if d = OVER then ConsumerPc.returned else ConsumerPc.call) := by
  obtain ⟨buf, ppc, n, cpc, printed, puts, gets⟩ := s
  cases cpc
  · simp only [consumer] at h
    cases hget : get buf with
    | done r =>
      obtain ⟨d, b⟩ := r
      rw [hget] at h
      simp only at h
      refine ⟨rfl, d, b, rfl, ?_⟩
      split_ifs at h with hd
      · cases h; simp [hd]
      · cases h; simp [hd]
    | wait => rw [hget] at h; cases h
    | fault => rw [hget] at h; cases h
  · simp [consumer] at h

theorem exec_after_return (running : Int → Bool) (sched : List Thread) :
    ∀ s s1 : System, s.cpc = ConsumerPc.returned → exec running s sched = some s1 →
      s1.gets = s.gets ∧ s1.printed = s.printed ∧ s1.cpc = ConsumerPc.returned := by
  induction sched with
  | nil => intro s s1 hc h; simp only [exec] at h; cases h; exact ⟨rfl, rfl, hc⟩
  | cons t ts ih =>
    intro s s1 hc h
    simp only [exec] at h
    cases hst : step running s t with
    | none => rw [hst] at h; cases h
    | some s2 =>
      rw [hst] at h
      simp only at h
      cases t with
      | prod =>
        obtain ⟨hg, hp, hcp⟩ := producer_frame running s s2 hst
        obtain ⟨h1, h2, h3⟩ := ih s2 s1 (by rw [hcp, hc]) h
        exact ⟨by rw [h1, hg], by rw [h2, hp], h3⟩
      | cons =>
        have := (consumer_step_spec s s2 hst).1
        rw [hc] at this; cases this

/-- Along any run, the consumer is the loop `consumerLoop` on the values its
calls of `get` have returned. -/
theorem consumer_exec (running : Int → Bool) (sched : List Thread) :
    ∀ s0 s : System, s0.cpc = ConsumerPc.call → exec running s0 sched = some s →
      ∃ gs, s.gets = s0.gets ++ gs ∧ s.printed = s0.printed ++ (consumerLoop gs).1 ∧
        (consumerLoop gs).2.1 = gs.length ∧ (consumerLoop gs).2.2 = s.cpc := by
  induction sched with
  | nil =>
    intro s0 s hc h
    simp only [exec] at h; cases h
    exact ⟨[], by simp, by simp [consumerLoop], rfl, by simp [consumerLoop, hc]⟩
  | cons t ts ih =>
    intro s0 s hc h
    simp only [exec] at h
    cases hst : step running s0 t with
    | none => rw [hst] at h; cases h
    | some s1 =>
      rw [hst] at h
      simp only at h
      cases t with
      | prod =>
        obtain ⟨hg, hp, hcp⟩ := producer_frame running s0 s1 hst
        obtain ⟨gs, h1, h2, h3, h4⟩ := ih s1 s (by rw [hcp, hc]) h
        exact ⟨gs, by rw [h1, hg], by rw [h2, hp], h3, h4⟩
      | cons =>
        obtain ⟨-, d, b, -, hg, hp, hcp⟩ := consumer_step_spec s0 s1 hst
        by_cases hd : d = OVER
        · rw [if_pos hd] at hp hcp
          obtain ⟨h1, h2, h3⟩ := exec_after_return running ts s1 s hcp h
          refine ⟨[d], by rw [h1, hg], ?_, ?_, ?_⟩
          · rw [h2, hp]; simp [consumerLoop, hd]
          · simp [consumerLoop, hd]
          · simp [consumerLoop, hd, h3]
        · rw [if_neg hd] at hp hcp
          obtain ⟨gs, h1, h2, h3, h4⟩ := ih s1 s hcp h
          refine ⟨d :: gs, ?_, ?_, ?_, ?_⟩
          · rw [h1, hg]; simp
          · rw [h2, hp]; simp [consumerLoop, hd]
          · simp [consumerLoop, hd, h3]
          · simp [consumerLoop, hd, h4]

/-! ## Ownership of the lock along a call -/

theorem callStep_inside (f : Fn) (c c1 : Call) (env : prodcons)
    (hc : c.owner = insideLock c.pc) (h : callStep f c env = some c1) :
    c1.owner = insideLock c1.pc := by
  obtain ⟨pc, owner, mem, data⟩ := c
  simp only at hc
  cases pc <;> cases f <;> simp only [callStep] at h <;> (try split_ifs at h) <;>
    cases h <;> simp_all [insideLock]

theorem callStep_ret (f : Fn) (c c1 : Call) (env : prodcons)
    (h : callStep f c env = some c1) (hret : c1.pc = Stmt.ret) : c.pc = Stmt.unlock := by
  obtain ⟨pc, owner, mem, data⟩ := c
  cases pc <;> cases f <;> simp only [callStep] at h <;> (try split_ifs at h) <;>
    cases h <;> simp_all

theorem callStep_wake (f : Fn) (c c1 : Call) (env : prodcons)
    (hc : ∀ cv, c.pc = Stmt.wait cv ∨ c.pc = Stmt.wake cv → cv = waitCond f)
    (h : callStep f c env = some c1) :
    ∀ cv, c1.pc = Stmt.wait cv ∨ c1.pc = Stmt.wake cv → cv = waitCond f := by
  obtain ⟨pc, owner, mem, data⟩ := c
  simp only at hc
  cases pc <;> cases f <;> simp only [callStep] at h <;> (try split_ifs at h) <;>
    cases h <;> simp_all

theorem runCall_cons (f : Fn) (c c2 : Call) (env : prodcons) (envs : List prodcons)
    (tr : List (Stmt × Bool)) (h : runCall f c (env :: envs) = some (c2, tr)) :
    ∃ c1 tr1, callStep f c env = some c1 ∧ runCall f c1 envs = some (c2, tr1) ∧
      tr = (c.pc, c.owner) :: tr1 := by
  simp only [runCall] at h
  cases hst : callStep f c env with
  | none => rw [hst] at h; cases h
  | some c1 =>
    rw [hst] at h
    simp only at h
    cases hrest : runCall f c1 envs with
    | none => rw [hrest] at h; cases h
    | some r =>
      rw [hrest] at h
      simp only [Option.map_some', Option.some.injEq, Prod.mk.injEq] at h
      obtain ⟨h1, h2⟩ := h
      refine ⟨c1, r.2, rfl, ?_, h2.symm⟩
      rw [← h1]; exact hrest

theorem runCall_inside (f : Fn) (envs : List prodcons) :
    ∀ (c c2 : Call) (tr : List (Stmt × Bool)),
      c.owner = insideLock c.pc →
      (∀ cv, c.pc = Stmt.wait cv ∨ c.pc = Stmt.wake cv → cv = waitCond f) →
      runCall f c envs = some (c2, tr) →
      c2.owner = insideLock c2.pc ∧ tr.length = envs.length ∧
        (∀ e ∈ tr, e.2 = insideLock e.1) ∧
        (∀ e ∈ tr, ∀ cv, e.1 = Stmt.wake cv → cv = waitCond f) := by
  induction envs with
  | nil =>
    intro c c2 tr hc _ h
    simp only [runCall, Option.some.injEq, Prod.mk.injEq] at h
    obtain ⟨h1, h2⟩ := h
    subst h1 h2
    exact ⟨hc, rfl, by simp, by simp⟩
  | cons env envs ih =>
    intro c c2 tr hc hcv h
    obtain ⟨c1, tr1, hst, hrest, htr⟩ := runCall_cons f c c2 env envs tr h
    obtain ⟨h1, h2, h3, h4⟩ := ih c1 c2 tr1 (callStep_inside f c c1 env hc hst)
      (callStep_wake f c c1 env hcv hst) hrest
    subst htr
    refine ⟨h1, by simp [h2], ?_, ?_⟩
    · intro e he
      rcases List.mem_cons.mp he with rfl | he
      · exact hc
      · exact h3 e he
    · intro e he cv hecv
      rcases List.mem_cons.mp he with rfl | he
      · exact hcv cv (Or.inr hecv)
      · exact h4 e he cv hecv

theorem runCall_last (f : Fn) (envs : List prodcons) :
    ∀ (c c2 : Call) (tr : List (Stmt × Bool)),
      c.owner = insideLock c.pc → c.pc ≠ Stmt.ret →
      runCall f c envs = some (c2, tr) → c2.pc = Stmt.ret →
      tr.getLast? = some (Stmt.unlock, true) := by
  induction envs with
  | nil =>
    intro c c2 tr _ hne h hret
    simp only [runCall, Option.some.injEq, Prod.mk.injEq] at h
    rw [← h.1] at hret
    exact absurd hret hne
  | cons env envs ih =>
    intro c c2 tr hc hne h hret
    obtain ⟨c1, tr1, hst, hrest, htr⟩ := runCall_cons f c c2 env envs tr h
    subst htr
    by_cases h1 : c1.pc = Stmt.ret
    · have hun := callStep_ret f c c1 env hst h1
      have hnil : tr1 = [] := by
        cases envs with
        | nil =>
          simp only [runCall, Option.some.injEq, Prod.mk.injEq] at hrest
          exact hrest.2.symm
        | cons e es =>
          obtain ⟨c3, _, hst3, _, _⟩ := runCall_cons f c1 c2 e es tr1 hrest
          simp [callStep, h1] at hst3
      subst hnil
      rw [hun] at hc
      simp [hun, hc, insideLock]
    · have hlast := ih c1 c2 tr1 (callStep_inside f c c1 env hc hst) h1 hrest hret
      cases tr1 with
      | nil => simp at hlast
      | cons x xs => rw [List.getLast?_cons_cons]; exact hlast

theorem touched_inside (f : Fn) (s : Stmt) (h : touched f s ≠ []) : insideLock s = true := by
  cases s <;> cases f <;> simp_all [touched, insideLock]

theorem linked_step (f : Fn) (data : Int) (m env : prodcons) (c c1 : Call)
    (hl : linked f data m c) (h : callStep f c env = some c1) :
    linked f data m c1 ∨ linked f data env c1 := by
  obtain ⟨pc, owner, mem, d⟩ := c
  obtain ⟨hd, hl⟩ := hl
  cases pc <;> cases f <;> simp only [callStep] at h <;> (try split_ifs at h with hg) <;>
    cases h <;> simp_all [linked] <;> (left; rw [if_neg (not_le.mpr hg)])

theorem linked_run (f : Fn) (data : Int) (envs : List prodcons) :
    ∀ (m : prodcons) (c c2 : Call) (tr : List (Stmt × Bool)),
      linked f data m c → runCall f c envs = some (c2, tr) →
      ∃ m2, (m2 = m ∨ m2 ∈ envs) ∧ linked f data m2 c2 := by
  induction envs with
  | nil =>
    intro m c c2 tr hl h
    simp only [runCall, Option.some.injEq, Prod.mk.injEq] at h
    rw [← h.1]
    exact ⟨m, Or.inl rfl, hl⟩
  | cons env envs ih =>
    intro m c c2 tr hl h
    obtain ⟨c1, tr1, hst, hrest, -⟩ := runCall_cons f c c2 env envs tr h
    rcases linked_step f data m env c c1 hl hst with h1 | h1
    · obtain ⟨m2, hm2, hl2⟩ := ih m c1 c2 tr1 h1 hrest
      refine ⟨m2, ?_, hl2⟩
      rcases hm2 with rfl | hm2
      · exact Or.inl rfl
      · exact Or.inr (List.mem_cons_of_mem _ hm2)
    · obtain ⟨m2, hm2, hl2⟩ := ih env c1 c2 tr1 h1 hrest
      refine ⟨m2, Or.inr ?_, hl2⟩
      rcases hm2 with rfl | hm2
      · exact List.mem_cons_self _ _
      · exact List.mem_cons_of_mem _ hm2

/-- A call that has returned did to the buffer what the one-step `put` or
`get` does to the buffer `m` the call found when it last obtained the lock,
and `m` passed the test of the loop. -/
theorem call_atomic (f : Fn) (b : prodcons) (data : Int) (envs : List prodcons)
    (c : Call) (tr : List (Stmt × Bool))
    (h : runCall f (entry b data) envs = some (c, tr)) (hret : c.pc = Stmt.ret) :
    ∃ m ∈ envs, guardHolds f m = false ∧
      (f = Fn.put → 0 ≤ m.writepos → m.writepos < 16 → put m data = Outcome.done c.mem) ∧
      (f = Fn.get → 0 ≤ m.readpos → m.readpos < 16 →
        get m = Outcome.done (c.data, c.mem)) := by
  cases envs with
  | nil =>
    simp only [runCall, Option.some.injEq, Prod.mk.injEq] at h
    rw [← h.1] at hret
    cases hret
  | cons env envs =>
    obtain ⟨c1, tr1, hst, hrest, -⟩ := runCall_cons f (entry b data) c env envs tr h
    have hl1 : linked f data env c1 := by
      simp only [callStep, entry, Option.some.injEq] at hst
      rw [← hst]
      exact ⟨fun _ => rfl, rfl⟩
    obtain ⟨m, hm, hd, hl⟩ := linked_run f data envs env c1 c tr1 hl1 hrest
    have hmem : m ∈ env :: envs := by
      rcases hm with rfl | hm
      · exact List.mem_cons_self _ _
      · exact List.mem_cons_of_mem _ hm
    obtain ⟨pc, owner, mem, d⟩ := c
    simp only at hret
    subst hret
    simp only at hl hd
    obtain ⟨hg, hl⟩ := hl
    refine ⟨m, hmem, hg, ?_, ?_⟩
    · intro hf h0 h1
      subst hf
      simp only at hl
      simp only [guardHolds, decide_eq_false_iff_not] at hg
      unfold put
      rw [if_neg hg, if_pos ⟨h0, by simpa [BUFFER_SIZE] using h1⟩, hl]
      simp only
      split_ifs <;> rfl
    · intro hf h0 h1
      subst hf
      simp only at hl
      obtain ⟨hl, hdata⟩ := hl
      simp only [guardHolds, decide_eq_false_iff_not] at hg
      unfold get
      rw [if_neg hg, if_pos ⟨h0, by simpa [BUFFER_SIZE] using h1⟩, hl, hdata]
      simp only
      split_ifs <;> rfl

/-! ## The properties of the buffer and of the two threads -/

/-- C1, FIFO order preservation.  For every sequence of completed `put`/`get`
calls on the initialised buffer (of any length, so the positions may wrap
around many times), the values passed to `put` are the values returned by the
`get`s followed by the slots read cyclically from `readpos` up to `writepos`;
in particular the values returned are a prefix of the values put. -/
theorem fifo_order_preserved (b0 b : prodcons) (ops : List Op) (gs : List Int)
    (h : runOps (init b0) ops = some (b, gs)) :
    putsOf ops = gs ++ queued b ∧ gs <+: putsOf ops := by
  obtain ⟨-, hq⟩ := runOps_spec ops (init b0) (b, gs) (inRange_init b0) h
  rw [queued_init, List.nil_append] at hq
  exact ⟨hq, ⟨queued b, hq.symm⟩⟩

theorem fifo_order_preserved_witness :
    putsOf sampleOps = sampleOpsGets ++ queued sampleOpsBuffer ∧
      sampleOpsGets <+: putsOf sampleOps :=
  fifo_order_preserved zeroed sampleOpsBuffer sampleOps sampleOpsGets (by decide)

/-- C2, no loss and no duplication.  In every run of the two threads that ends
with both returned, under any schedule and any readings of `running`, the
multiset of values other than `OVER` obtained from `get` equals the multiset
of values other than `OVER` passed to `put`, and the buffer ends empty. -/
theorem no_loss_no_duplication (running : Int → Bool) (sched : List Thread) (s : System)
    (h : exec running start sched = some s) (hf : finished s) :
    (Multiset.ofList (s.gets.filter (fun d => decide (d ≠ OVER)))
        = Multiset.ofList (s.puts.filter (fun d => decide (d ≠ OVER)))) ∧
      s.buffer.readpos = s.buffer.writepos := by
  have hs := Inv_exec running sched start s (Inv_start running) h
  obtain ⟨-, hputs, hgets, -, -, hpos⟩ := finished_spec running s hs hf
  exact ⟨by rw [hputs, hgets], hpos⟩

theorem no_loss_no_duplication_witness :
    (Multiset.ofList (aheadFinal.gets.filter (fun d => decide (d ≠ OVER)))
        = Multiset.ofList (aheadFinal.puts.filter (fun d => decide (d ≠ OVER)))) ∧
      aheadFinal.buffer.readpos = aheadFinal.buffer.writepos :=
  no_loss_no_duplication (stopAt 20) aheadSchedule aheadFinal (by decide) (by decide)

/-- C3, termination guarantee.  Whatever the readings of `running`, a run of
the two threads has at most 3003 steps, with at most 1001 completed puts and
1001 completed gets; the states in which neither thread can move are exactly
those where both have returned, and such a state can be reached from every
reachable state; `OVER` is returned by no `get` while the consumer is still
running and by exactly the last `get` once it has returned. -/
theorem termination_guarantee (running : Int → Bool) (sched : List Thread) (s : System)
    (h : exec running start sched = some s) :
    sched.length ≤ 3003 ∧ s.puts.length ≤ 1001 ∧ s.gets.length ≤ 1001 ∧
      ((step running s Thread.prod = none ∧ step running s Thread.cons = none)
        ↔ finished s) ∧
      (∃ rest s1, exec running s rest = some s1 ∧ finished s1) ∧
      (s.cpc = ConsumerPc.call → OVER ∉ s.gets) ∧
      (s.cpc = ConsumerPc.returned → ∃ ds, s.gets = ds ++ [OVER] ∧ OVER ∉ ds) := by
  have hs := Inv_exec running sched start s (Inv_start running) h
  obtain ⟨hsteps, hputs, hgets⟩ := Inv_bounds running s hs
  have hlen := stepsTaken_exec running sched start s (Inv_start running) h
  have h0 : stepsTaken start = 0 := rfl
  refine ⟨by omega, hputs, hgets, ⟨progress running s hs, finished_stuck running s⟩,
    completion running 3003 s hs (by omega), ?_, ?_⟩
  · intro hc
    have hI := hs.2.2.2.2.2.2
    rw [hc] at hI
    exact hI.2
  · intro hc
    have hI := hs.2.2.2.2.2.2
    rw [hc] at hI
    exact ⟨s.printed, hI.1, hI.2⟩

theorem termination_guarantee_witness :
    eagerSchedule.length ≤ 3003 ∧ eagerFinal.puts.length ≤ 1001 ∧
      eagerFinal.gets.length ≤ 1001 ∧
      ((step (stopAt 18) eagerFinal Thread.prod = none ∧
          step (stopAt 18) eagerFinal Thread.cons = none) ↔ finished eagerFinal) ∧
      (∃ rest s1, exec (stopAt 18) eagerFinal rest = some s1 ∧ finished s1) ∧
      (eagerFinal.cpc = ConsumerPc.call → OVER ∉ eagerFinal.gets) ∧
      (eagerFinal.cpc = ConsumerPc.returned →
        ∃ ds, eagerFinal.gets = ds ++ [OVER] ∧ OVER ∉ ds) :=
  termination_guarantee (stopAt 18) eagerSchedule eagerFinal (by decide)

/-- C4, capacity bound.  In every state reached from the initialised buffer by
completed calls, the number of queued items `(writepos - readpos) mod 16` is
the number of puts minus the number of gets and is at most 15; `put` completes
exactly when it is less than 15 and waits exactly when it is 15.  From the
initialised buffer fifteen puts in a row complete, the sixteenth waits, and
after one `get` it completes. -/
theorem capacity_bound (b0 b : prodcons) (ops : List Op) (gs vs : List Int)
    (h : runOps (init b0) ops = some (b, gs)) (hvs : vs.length = 15) :
    occupancy b ≤ 15 ∧ occupancy b + gs.length = (putsOf ops).length ∧
      (∀ v, (∃ b1, put b v = Outcome.done b1) ↔ occupancy b < 15) ∧
      (∀ v, put b v = Outcome.wait ↔ occupancy b = 15) ∧
      ∃ c, runOps (init b0) (vs.map Op.put) = some (c, []) ∧
        (∀ v, put c v = Outcome.wait) ∧
        ∃ d c1, get c = Outcome.done (d, c1) ∧ ∀ v, ∃ c2, put c1 v = Outcome.done c2 := by
  obtain ⟨hb, hq⟩ := runOps_spec ops (init b0) (b, gs) (inRange_init b0) h
  rw [queued_init, List.nil_append] at hq
  have hlen : (putsOf ops).length = gs.length + occupancy b := by
    rw [hq, List.length_append, length_queued]
  have hcases := fun v => put_cases b v hb
  refine ⟨?_, by omega, ?_, ?_, ?_⟩
  · rcases hcases 0 with ⟨h1, -⟩ | ⟨h1, -⟩ <;> omega
  · intro v
    rcases hcases v with ⟨h1, h2⟩ | ⟨h1, h2⟩
    · constructor
      · rintro ⟨b1, hd⟩; rw [h2] at hd; cases hd
      · intro hlt; omega
    · exact ⟨fun _ => h1, fun _ => h2⟩
  · intro v
    rcases hcases v with ⟨h1, h2⟩ | ⟨h1, b1, h2⟩
    · exact ⟨fun _ => h1, fun _ => h2⟩
    · constructor
      · intro hw; rw [hw] at h2; cases h2
      · intro he; omega
  · have hempty : occupancy (init b0) = 0 := by
      rw [← length_queued, queued_init]; rfl
    obtain ⟨c, hrun, hc, hocc⟩ := runOps_puts vs (init b0) (inRange_init b0) (by omega)
    have hfull : occupancy c = 15 := by omega
    refine ⟨c, hrun, ?_, ?_⟩
    · intro v
      rcases put_cases c v hc with ⟨-, hw⟩ | ⟨hlt, -⟩
      · exact hw
      · omega
    · rcases get_cases c hc with ⟨h0, -⟩ | ⟨-, d, c1, hg⟩
      · omega
      · obtain ⟨-, -, -, -, -, hc1, hq1⟩ := get_spec c c1 d hc hg
        have hocc1 : occupancy c = occupancy c1 + 1 := by
          rw [← length_queued, ← length_queued, hq1]; rfl
        refine ⟨d, c1, hg, fun v => ?_⟩
        rcases put_cases c1 v hc1 with ⟨h15, -⟩ | ⟨-, hd⟩
        · omega
        · exact hd

theorem capacity_bound_witness :
    occupancy shortOpsBuffer ≤ 15 ∧
      occupancy shortOpsBuffer + [(5 : Int), 6].length = (putsOf shortOps).length ∧
      (∀ v, (∃ b1, put shortOpsBuffer v = Outcome.done b1) ↔ occupancy shortOpsBuffer < 15) ∧
      (∀ v, put shortOpsBuffer v = Outcome.wait ↔ occupancy shortOpsBuffer = 15) ∧
      ∃ c, runOps (init zeroed) ((upto 15).map Op.put) = some (c, []) ∧
        (∀ v, put c v = Outcome.wait) ∧
        ∃ d c1, get c = Outcome.done (d, c1) ∧ ∀ v, ∃ c2, put c1 v = Outcome.done c2 :=
  capacity_bound zeroed shortOpsBuffer shortOps [5, 6] (upto 15) (by decide) (by decide)

/-- C5, deadlock freedom.  In a state whose positions lie in `0..15` the guard
of `put` (full) and the guard of `get` (empty) never hold together, so the two
calls never both wait; the state left by a completed `put` is not empty, so a
`get` no longer waits, and the state left by a completed `get` is not full, so
a `put` no longer waits. -/
theorem deadlock_freedom (b : prodcons) (hb : inRange b) :
    ¬ ((b.writepos + 1).tmod BUFFER_SIZE = b.readpos ∧ b.writepos = b.readpos) ∧
      (∀ v, ¬ (put b v = Outcome.wait ∧ get b = Outcome.wait)) ∧
      (∀ v b1, put b v = Outcome.done b1 →
        b1.writepos ≠ b1.readpos ∧ get b1 ≠ Outcome.wait) ∧
      (∀ d b1, get b = Outcome.done (d, b1) →
        (b1.writepos + 1).tmod BUFFER_SIZE ≠ b1.readpos ∧ ∀ v, put b1 v ≠ Outcome.wait) := by
  have hb2 := hb
  obtain ⟨hr0, hr1, hw0, hw1⟩ := hb2
  simp only [BUFFER_SIZE] at hr1 hw1
  refine ⟨?_, ?_, ?_, ?_⟩
  · rw [tmod_succ _ hw0]; omega
  · rintro v ⟨hp, hg⟩
    rcases put_cases b v hb with ⟨h15, -⟩ | ⟨-, b1, hd⟩
    · rcases get_cases b hb with ⟨h0, -⟩ | ⟨-, d, b1, hd⟩
      · omega
      · rw [hg] at hd; cases hd
    · rw [hp] at hd; cases hd
  · intro v b1 hp
    obtain ⟨hne, -, hr, hw, hb1, -⟩ := put_spec b b1 v hb hp
    have hne1 : b1.writepos ≠ b1.readpos := by rw [hr, hw]; exact hne
    refine ⟨hne1, ?_⟩
    unfold get
    rw [if_neg hne1]
    split_ifs <;> simp
  · intro d b1 hg
    obtain ⟨hne, -, -, hr, hw, hb1, -⟩ := get_spec b b1 d hb hg
    have hne1 : (b1.writepos + 1).tmod BUFFER_SIZE ≠ b1.readpos := by
      rw [tmod_succ _ hb1.2.2.1, hr, hw]; omega
    refine ⟨hne1, fun v => ?_⟩
    unfold put
    rw [if_neg hne1]
    split_ifs <;> simp

theorem deadlock_freedom_witness :
    ¬ ((wrapOpsBuffer.writepos + 1).tmod BUFFER_SIZE = wrapOpsBuffer.readpos ∧
        wrapOpsBuffer.writepos = wrapOpsBuffer.readpos) ∧
      (∀ v, ¬ (put wrapOpsBuffer v = Outcome.wait ∧ get wrapOpsBuffer = Outcome.wait)) ∧
      (∀ v b1, put wrapOpsBuffer v = Outcome.done b1 →
        b1.writepos ≠ b1.readpos ∧ get b1 ≠ Outcome.wait) ∧
      (∀ d b1, get wrapOpsBuffer = Outcome.done (d, b1) →
        (b1.writepos + 1).tmod BUFFER_SIZE ≠ b1.readpos ∧ ∀ v, put b1 v ≠ Outcome.wait) :=
  deadlock_freedom wrapOpsBuffer (by decide)

/-- C6, full run.  When `running` is read as true in every iteration, then
under every schedule a run that ends with both threads returned has the
consumer's gets return exactly 0, 1, ..., 999 followed by `OVER`, and the
consumer print exactly 0, 1, ..., 999 in that order. -/
theorem full_run (running : Int → Bool) (sched : List Thread) (s : System)
    (hrun : ∀ n : Int, 0 ≤ n → n < 1000 → running n = true)
    (h : exec running start sched = some s) (hf : finished s) :
    s.gets = upto 1000 ++ [OVER] ∧ s.printed = upto 1000 := by
  have hs := Inv_exec running sched start s (Inv_start running) h
  obtain ⟨hk, -, hgets, hprinted, -, -⟩ := finished_spec running s hs hf
  have hcp : cancelPoint running = 1000 :=
    cancelPoint_eq running 1000 (Nat.le_refl _) (fun m hm => hrun m (by omega) (by omega))
      (fun hlt => absurd hlt (Nat.lt_irrefl _))
  rw [hk, hcp] at hgets hprinted
  exact ⟨hgets, hprinted⟩

theorem full_run_witness :
    fullFinal.gets = upto 1000 ++ [OVER] ∧ fullFinal.printed = upto 1000 :=
  full_run neverStop (rounds 1001) fullFinal (fun _ _ _ => rfl) exec_full ⟨rfl, rfl⟩

/-- C7, immediate cancellation.  When `running` is read as false at the
producer's first check (iteration 0), then in every run that ends with both
threads returned the producer has made exactly one put, of `OVER`, the
consumer has made exactly one get, which returned `OVER`, and nothing has been
printed. -/
theorem immediate_cancellation (running : Int → Bool) (sched : List Thread) (s : System)
    (h0 : running 0 = false) (h : exec running start sched = some s) (hf : finished s) :
    s.puts = [OVER] ∧ s.gets = [OVER] ∧ s.printed = [] := by
  have hs := Inv_exec running sched start s (Inv_start running) h
  obtain ⟨hk, hputs, hgets, hprinted, -, -⟩ := finished_spec running s hs hf
  have hcp : cancelPoint running = 0 :=
    cancelPoint_eq running 0 (Nat.zero_le _) (fun m hm => absurd hm (Nat.not_lt_zero _))
      (fun _ => h0)
  rw [hk, hcp] at hputs hgets hprinted
  exact ⟨hputs, hgets, hprinted⟩

theorem immediate_cancellation_witness :
    cancelledFinal.puts = [OVER] ∧ cancelledFinal.gets = [OVER] ∧
      cancelledFinal.printed = [] :=
  immediate_cancellation (stopAt 0) (rounds 1) cancelledFinal (by decide) (by decide)
    (by decide)

/-- C8, sentinel exactly once and last.  Let `k` be the first iteration below
1000 in which `running` is read as false, and 1000 when there is none.  In
every reachable state the producer's puts so far are `0, ..., n-1` with
`n ≤ k` while it has not returned, and `0, ..., k-1` followed by one `OVER`
once it has returned: `OVER` is put exactly once, as the last put, and no data
item is put from iteration `k` on.  The producer can be brought to return from
every reachable state. -/
theorem sentinel_once_and_last (running : Int → Bool) (sched : List Thread) (s : System)
    (h : exec running start sched = some s) :
    cancelPoint running ≤ 1000 ∧
      (∀ m : Nat, m < cancelPoint running → running (m : Int) = true) ∧
      (cancelPoint running < 1000 → running (cancelPoint running : Int) = false) ∧
      (s.ppc ≠ ProducerPc.returned →
        s.n.toNat ≤ cancelPoint running ∧ s.puts = upto s.n.toNat ∧ OVER ∉ s.puts) ∧
      (s.ppc = ProducerPc.returned →
        s.puts = upto (cancelPoint running) ++ [OVER] ∧ s.puts.count OVER = 1 ∧
          s.puts.getLast? = some OVER) ∧
      (∃ rest s1, exec running s rest = some s1 ∧ s1.ppc = ProducerPc.returned) := by
  have hs := Inv_exec running sched start s (Inv_start running) h
  obtain ⟨hret, hnot⟩ := puts_spec running s hs
  have hsteps := (Inv_bounds running s hs).1
  obtain ⟨rest, s1, hrest, hfin⟩ := completion running 3003 s hs (by omega)
  have hs1 := Inv_exec running rest s s1 hs hrest
  obtain ⟨hk1, -⟩ := (puts_spec running s1 hs1).1 hfin.1
  obtain ⟨-, -, hn0, hn1, hrun1, hp1, -⟩ := hs1
  rw [hfin.1] at hp1
  refine ⟨cancelPoint_le running, ?_, ?_, ?_, ?_, ⟨rest, s1, hrest, hfin.1⟩⟩
  · intro m hm
    exact hrun1 m (by omega)
  · intro hlt
    have e : ((cancelPoint running : Nat) : Int) = s1.n := by omega
    rw [e]
    exact hp1.1 (by omega)
  · intro hne
    obtain ⟨hle, hputs⟩ := hnot hne
    exact ⟨hle, hputs, by rw [hputs]; exact over_not_mem_upto _⟩
  · intro heq
    obtain ⟨hk, hputs⟩ := hret heq
    rw [hk] at hputs
    refine ⟨hputs, ?_, ?_⟩
    · rw [hputs, List.count_append, List.count_eq_zero_of_not_mem (over_not_mem_upto _)]
      simp
    · rw [hputs]; simp

theorem sentinel_once_and_last_witness :
    cancelPoint (stopAt 3) ≤ 1000 ∧
      (∀ m : Nat, m < cancelPoint (stopAt 3) → stopAt 3 (m : Int) = true) ∧
      (cancelPoint (stopAt 3) < 1000 → stopAt 3 (cancelPoint (stopAt 3) : Int) = false) ∧
      (producerOnlyFinal.ppc ≠ ProducerPc.returned →
        producerOnlyFinal.n.toNat ≤ cancelPoint (stopAt 3) ∧
          producerOnlyFinal.puts = upto producerOnlyFinal.n.toNat ∧
          OVER ∉ producerOnlyFinal.puts) ∧
      (producerOnlyFinal.ppc = ProducerPc.returned →
        producerOnlyFinal.puts = upto (cancelPoint (stopAt 3)) ++ [OVER] ∧
          producerOnlyFinal.puts.count OVER = 1 ∧
          producerOnlyFinal.puts.getLast? = some OVER) ∧
      (∃ rest s1, exec (stopAt 3) producerOnlyFinal rest = some s1 ∧
        s1.ppc = ProducerPc.returned) :=
  sentinel_once_and_last (stopAt 3) (List.replicate 8 Thread.prod) producerOnlyFinal
    (by decide)

/-- C9, cancellation only truncates.  In a run that ends with both threads
returned the consumer prints exactly `0, ..., k-1`, where `k` is the first
iteration in which `running` is read as false (1000 when there is none), and
this is a prefix of `0, ..., 999`.  Hence two complete runs with the same `k`
print the same values, whatever their schedules and whatever else the readings
of `running` are. -/
theorem cancellation_truncates (running1 running2 : Int → Bool)
    (sched1 sched2 : List Thread) (s1 s2 : System)
    (h1 : exec running1 start sched1 = some s1) (hf1 : finished s1)
    (h2 : exec running2 start sched2 = some s2) (hf2 : finished s2)
    (hk : cancelPoint running1 = cancelPoint running2) :
    s1.printed = upto (cancelPoint running1) ∧ s1.printed <+: upto 1000 ∧
      s2.printed = s1.printed := by
  have hs1 := Inv_exec running1 sched1 start s1 (Inv_start running1) h1
  have hs2 := Inv_exec running2 sched2 start s2 (Inv_start running2) h2
  obtain ⟨hk1, -, -, hp1, -, -⟩ := finished_spec running1 s1 hs1 hf1
  obtain ⟨hk2, -, -, hp2, -, -⟩ := finished_spec running2 s2 hs2 hf2
  rw [hk1] at hp1
  rw [hk2, ← hk] at hp2
  refine ⟨hp1, ?_, by rw [hp1, hp2]⟩
  rw [hp1]
  exact upto_prefix _ _ (cancelPoint_le running1)

theorem cancellation_truncates_witness :
    seventeenFinal.printed = upto (cancelPoint (stopAt 17)) ∧
      seventeenFinal.printed <+: upto 1000 ∧
      seventeenFinal.printed = seventeenFinal.printed :=
  cancellation_truncates (stopAt 17) (stopOnlyAt 17) (rounds 18) burstSchedule
    seventeenFinal seventeenFinal (by decide) (by decide) (by decide) (by decide)
    (by decide!)

/-- C10, index invariant.  `init` sets `readpos = writepos = 0`; a completed
`put` and a completed `get` map a state with `0 ≤ readpos < 16` and
`0 ≤ writepos < 16` to such a state; hence in every state reached from the
initialised buffer both positions are in that range, and neither `put` nor
`get` indexes outside the sixteen-element array. -/
theorem index_invariant (b0 b c : prodcons) (ops : List Op) (gs : List Int)
    (hb : inRange b) (hc : runOps (init b0) ops = some (c, gs)) :
    (init b0).readpos = 0 ∧ (init b0).writepos = 0 ∧
      (∀ v b1, put b v = Outcome.done b1 → inRange b1) ∧
      (∀ d b1, get b = Outcome.done (d, b1) → inRange b1) ∧
      inRange c ∧ c.buffer.val.length = 16 ∧
      (∀ v, put c v ≠ Outcome.fault) ∧ get c ≠ Outcome.fault := by
  obtain ⟨hcr, -⟩ := runOps_spec ops (init b0) (c, gs) (inRange_init b0) hc
  refine ⟨rfl, rfl, ?_, ?_, hcr, c.buffer.property, ?_, ?_⟩
  · intro v b1 hp
    exact (put_spec b b1 v hb hp).2.2.2.2.1
  · intro d b1 hg
    exact (get_spec b b1 d hb hg).2.2.2.2.2.1
  · intro v hfault
    rcases put_cases c v hcr with ⟨-, hw⟩ | ⟨-, b1, hd⟩
    · rw [hw] at hfault; cases hfault
    · rw [hd] at hfault; cases hfault
  · intro hfault
    rcases get_cases c hcr with ⟨-, hw⟩ | ⟨-, d, b1, hd⟩
    · rw [hw] at hfault; cases hfault
    · rw [hd] at hfault; cases hfault

theorem index_invariant_witness :
    (init zeroed).readpos = 0 ∧ (init zeroed).writepos = 0 ∧
      (∀ v b1, put sampleOpsBuffer v = Outcome.done b1 → inRange b1) ∧
      (∀ d b1, get sampleOpsBuffer = Outcome.done (d, b1) → inRange b1) ∧
      inRange wrapOpsBuffer ∧ wrapOpsBuffer.buffer.val.length = 16 ∧
      (∀ v, put wrapOpsBuffer v ≠ Outcome.fault) ∧ get wrapOpsBuffer ≠ Outcome.fault :=
  index_invariant zeroed sampleOpsBuffer wrapOpsBuffer wrapOps [0] (by decide) (by decide)

/-- C11, effect of `put`.  In a state with `0 ≤ writepos < 16` in which the
buffer is not full, `put(item)` completes; afterwards the slot at the old
`writepos` holds `item`, `writepos` is the old `writepos + 1` modulo 16 (the
increment followed by the reset to 0 is the modular advance), `readpos` is
unchanged and so is every other slot. -/
theorem put_effect (b : prodcons) (item : Int) (h0 : 0 ≤ b.writepos) (h1 : b.writepos < 16)
    (hnf : (b.writepos + 1).tmod BUFFER_SIZE ≠ b.readpos) :
    ∃ b1, put b item = Outcome.done b1 ∧
      readSlot b1.buffer b.writepos = item ∧
      b1.writepos = (b.writepos + 1) % 16 ∧
      b1.writepos = (b.writepos + 1).tmod BUFFER_SIZE ∧
      b1.readpos = b.readpos ∧
      ∀ i : Int, 0 ≤ i → i < 16 → i ≠ b.writepos →
        readSlot b1.buffer i = readSlot b.buffer i := by
  refine ⟨_, put_done b item h0 h1 hnf, ?_, rfl, ?_, rfl, ?_⟩
  · exact readSlot_writeSlot_same b.buffer b.writepos item h0 h1
  · exact (tmod_succ b.writepos h0).symm
  · intro i hi0 _ hne
    exact readSlot_writeSlot_ne b.buffer b.writepos i item h0 hi0 (fun e => hne e.symm)

theorem put_effect_witness :
    ∃ b1, put sampleOpsBuffer 42 = Outcome.done b1 ∧
      readSlot b1.buffer sampleOpsBuffer.writepos = 42 ∧
      b1.writepos = (sampleOpsBuffer.writepos + 1) % 16 ∧
      b1.writepos = (sampleOpsBuffer.writepos + 1).tmod BUFFER_SIZE ∧
      b1.readpos = sampleOpsBuffer.readpos ∧
      ∀ i : Int, 0 ≤ i → i < 16 → i ≠ sampleOpsBuffer.writepos →
        readSlot b1.buffer i = readSlot sampleOpsBuffer.buffer i :=
  put_effect sampleOpsBuffer 42 (by decide) (by decide) (by decide)

/-- C12, effect of `get`.  In a state with `0 ≤ readpos < 16` in which the
buffer is not empty, `get` completes and returns the slot at `readpos`;
afterwards `readpos` is the old `readpos + 1` modulo 16 (the increment
followed by the reset to 0 is the modular advance), `writepos` is unchanged
and so is the whole array. -/
theorem get_effect (b : prodcons) (h0 : 0 ≤ b.readpos) (h1 : b.readpos < 16)
    (hne : b.writepos ≠ b.readpos) :
    ∃ b1, get b = Outcome.done (readSlot b.buffer b.readpos, b1) ∧
      b1.readpos = (b.readpos + 1) % 16 ∧
      b1.readpos = (b.readpos + 1).tmod BUFFER_SIZE ∧
      b1.writepos = b.writepos ∧ b1.buffer = b.buffer := by
  exact ⟨_, get_done b h0 h1 hne, rfl, (tmod_succ b.readpos h0).symm, rfl, rfl⟩

theorem get_effect_witness :
    ∃ b1, get sampleOpsBuffer
        = Outcome.done (readSlot sampleOpsBuffer.buffer sampleOpsBuffer.readpos, b1) ∧
      b1.readpos = (sampleOpsBuffer.readpos + 1) % 16 ∧
      b1.readpos = (sampleOpsBuffer.readpos + 1).tmod BUFFER_SIZE ∧
      b1.writepos = sampleOpsBuffer.writepos ∧ b1.buffer = sampleOpsBuffer.buffer :=
  get_effect sampleOpsBuffer (by decide) (by decide) (by decide)

/-- C17, round trip on an empty buffer.  From a state with
`readpos = writepos = p`, `0 ≤ p < 16`, `put(v)` completes, the `get` that
follows completes and returns `v`, and the state is empty again with
`readpos = writepos = (p + 1) mod 16`.  Sixteen such pairs in a row from the
initialised buffer return the values put, in order, and leave both positions
at 0. -/
theorem round_trip_empty (b b0 : prodcons) (p v : Int) (vs : List Int)
    (hp0 : 0 ≤ p) (hp1 : p < 16) (hr : b.readpos = p) (hw : b.writepos = p)
    (hvs : vs.length = 16) :
    (∃ b1 b2, put b v = Outcome.done b1 ∧ get b1 = Outcome.done (v, b2) ∧
      b2.readpos = (p + 1) % 16 ∧ b2.writepos = (p + 1) % 16 ∧ get b2 = Outcome.wait) ∧
    ∃ b3, runOps (init b0) (putGetPairs vs) = some (b3, vs) ∧
      b3.readpos = 0 ∧ b3.writepos = 0 := by
  constructor
  · have hb : b = { buffer := b.buffer, readpos := p, writepos := p } := by
      obtain ⟨a, r, w⟩ := b
      simp only at hr hw
      rw [hr, hw]
    rw [hb]
    refine ⟨_, _, put_empty b.buffer p v hp0 hp1, get_single b.buffer p v hp0 hp1,
      rfl, rfl, ?_⟩
    simp [get]
  · obtain ⟨a1, hrun⟩ := runOps_pairs vs b0.buffer 0 (by omega) (by omega)
    have e : ((0 : Int) + (vs.length : Int)) % 16 = 0 := by rw [hvs]; decide
    rw [e] at hrun
    exact ⟨_, hrun, rfl, rfl⟩

theorem round_trip_empty_witness :
    (∃ b1 b2, put emptyAtLast 7 = Outcome.done b1 ∧ get b1 = Outcome.done (7, b2) ∧
      b2.readpos = (15 + 1) % 16 ∧ b2.writepos = (15 + 1) % 16 ∧ get b2 = Outcome.wait) ∧
    ∃ b3, runOps (init zeroed) (putGetPairs (upto 16)) = some (b3, upto 16) ∧
      b3.readpos = 0 ∧ b3.writepos = 0 :=
  round_trip_empty emptyAtLast zeroed 15 7 (upto 16) (by decide) (by decide) (by decide)
    (by decide) (by decide)

/-- C13, consumer protocol.  Whatever values `ds` the successive calls of
`get` would return, the consumer prints exactly the values before the first
`OVER`, in order, never `OVER` itself; when `OVER` occurs it makes one call
more than it prints values and returns, so it makes no call after the one
that returned `OVER`; when `OVER` does not occur it takes every value and has
not returned.  In every run of the program from any state with the consumer
in its loop, the consumer is this loop on the values its calls have returned
so far, and the reading of `running` plays no part in its step. -/
theorem consumer_protocol (ds : List Int) (running : Int → Bool) (sched : List Thread)
    (s0 s : System) (h0 : s0.cpc = ConsumerPc.call) (h : exec running s0 sched = some s) :
    (consumerLoop ds).1 = beforeOver ds ∧ OVER ∉ (consumerLoop ds).1 ∧
      (consumerLoop ds).2.1 = (if OVER ∈ ds then (beforeOver ds).length + 1 else ds.length) ∧
      (consumerLoop ds).2.2 = (if OVER ∈ ds then ConsumerPc.returned else ConsumerPc.call) ∧
      (∃ gs, s.gets = s0.gets ++ gs ∧ s.printed = s0.printed ++ beforeOver gs ∧
        consumerLoop gs = (beforeOver gs, gs.length, s.cpc)) ∧
      (∀ running1 running2 s1, step running1 s1 Thread.cons = step running2 s1 Thread.cons) := by
  obtain ⟨h1, h2, h3⟩ := consumerLoop_spec ds
  refine ⟨h1, ?_, h2, h3, ?_, fun _ _ _ => rfl⟩
  · rw [h1]; exact over_not_mem_beforeOver ds
  · obtain ⟨gs, hg, hp, hn, hc⟩ := consumer_exec running sched s0 s h0 h
    have h4 := (consumerLoop_spec gs).1
    refine ⟨gs, hg, by rw [hp, h4], ?_⟩
    rw [← h4, ← hn, ← hc]

theorem consumer_protocol_witness :
    (consumerLoop [4, 9, -1, 6, -1]).1 = beforeOver [4, 9, -1, 6, -1] ∧
      OVER ∉ (consumerLoop [4, 9, -1, 6, -1]).1 ∧
      (consumerLoop [4, 9, -1, 6, -1]).2.1
        = (if OVER ∈ ([4, 9, -1, 6, -1] : List Int)
            then (beforeOver [4, 9, -1, 6, -1]).length + 1
            else ([4, 9, -1, 6, -1] : List Int).length) ∧
      (consumerLoop [4, 9, -1, 6, -1]).2.2
        = (if OVER ∈ ([4, 9, -1, 6, -1] : List Int)
            then ConsumerPc.returned else ConsumerPc.call) ∧
      (∃ gs, aheadFinal.gets = start.gets ++ gs ∧
        aheadFinal.printed = start.printed ++ beforeOver gs ∧
        consumerLoop gs = (beforeOver gs, gs.length, aheadFinal.cpc)) ∧
      (∀ running1 running2 s1, step running1 s1 Thread.cons = step running2 s1 Thread.cons) :=
  consumer_protocol [4, 9, -1, 6, -1] (stopAt 20) aheadSchedule start aheadFinal (by decide)
    (by decide)

/-- C14, the sentinel is out of band.  In every reachable state, as long as
the producer has not made its final put, every value it has put lies in
`0..999` and so differs from `OVER`, no `get` has returned `OVER` and the
consumer has not returned; once the consumer has returned, the producer has
returned too and every data item it put has been printed. -/
theorem sentinel_out_of_band (running : Int → Bool) (sched : List Thread) (s : System)
    (h : exec running start sched = some s) :
    (s.ppc ≠ ProducerPc.returned →
        (∀ v ∈ s.puts, 0 ≤ v ∧ v ≤ 999 ∧ v ≠ OVER) ∧ OVER ∉ s.gets ∧
          s.cpc = ConsumerPc.call) ∧
      (∀ v ∈ s.puts.dropLast, 0 ≤ v ∧ v ≤ 999 ∧ v ≠ OVER) ∧
      (s.cpc = ConsumerPc.returned →
        s.ppc = ProducerPc.returned ∧ s.puts = s.printed ++ [OVER] ∧
          s.gets = s.printed ++ [OVER]) := by
  have hs := Inv_exec running sched start s (Inv_start running) h
  obtain ⟨hret, hnot⟩ := puts_spec running s hs
  obtain ⟨-, hq, hn0, hn1, -, -, hc⟩ := hs
  have hdata : ∀ v ∈ upto s.n.toNat, 0 ≤ v ∧ v ≤ 999 ∧ v ≠ OVER := by
    intro v hv
    rw [mem_upto] at hv
    unfold OVER
    omega
  have hcall : s.ppc ≠ ProducerPc.returned → OVER ∉ s.gets ∧ s.cpc = ConsumerPc.call := by
    intro hne
    obtain ⟨-, hputs⟩ := hnot hne
    have hno : OVER ∉ s.gets := by
      intro hmem
      apply over_not_mem_upto s.n.toNat
      rw [← hputs, hq]
      exact List.mem_append_left _ hmem
    refine ⟨hno, ?_⟩
    cases hcpc : s.cpc with
    | call => rfl
    | returned =>
      rw [hcpc] at hc
      exact absurd (by rw [hc.1]; simp) hno
  refine ⟨?_, ?_, ?_⟩
  · intro hne
    obtain ⟨-, hputs⟩ := hnot hne
    exact ⟨by rw [hputs]; exact hdata, hcall hne⟩
  · by_cases hp : s.ppc = ProducerPc.returned
    · obtain ⟨-, hputs⟩ := hret hp
      rw [hputs, List.dropLast_concat]
      exact hdata
    · obtain ⟨-, hputs⟩ := hnot hp
      intro v hv
      exact hdata v (by rw [← hputs]; exact List.dropLast_subset _ hv)
  · intro hcpc
    have hp : s.ppc = ProducerPc.returned := by
      by_contra hne
      have := (hcall hne).2
      rw [hcpc] at this; cases this
    obtain ⟨-, hputs⟩ := hret hp
    rw [hcpc] at hc
    obtain ⟨hg, -⟩ := hc
    rw [hputs, hg] at hq
    obtain ⟨-, hpr⟩ := append_singleton_split OVER _ _ _ (over_not_mem_upto _) hq
    exact ⟨hp, by rw [hputs, hpr], hg⟩

theorem sentinel_out_of_band_witness :
    (producerOnlyFinal.ppc ≠ ProducerPc.returned →
        (∀ v ∈ producerOnlyFinal.puts, 0 ≤ v ∧ v ≤ 999 ∧ v ≠ OVER) ∧
          OVER ∉ producerOnlyFinal.gets ∧ producerOnlyFinal.cpc = ConsumerPc.call) ∧
      (∀ v ∈ producerOnlyFinal.puts.dropLast, 0 ≤ v ∧ v ≤ 999 ∧ v ≠ OVER) ∧
      (producerOnlyFinal.cpc = ConsumerPc.returned →
        producerOnlyFinal.ppc = ProducerPc.returned ∧
          producerOnlyFinal.puts = producerOnlyFinal.printed ++ [OVER] ∧
          producerOnlyFinal.gets = producerOnlyFinal.printed ++ [OVER]) :=
  sentinel_out_of_band (stopAt 3) (List.replicate 8 Thread.prod) producerOnlyFinal (by decide)

/-- C15 as stated fails: `pthread_mutex_init` fails, and `main` still goes on
to create the threads, from the state with both positions at 0. -/
theorem init_failure_not_fatal :
    lockFails.lock ≠ 0 ∧ mainStartup lockFails ≠ Startup.aborted ∧
      mainStartup lockFails = Startup.started start := by
  decide

/-- C15, amended.  `init` and `main` do not look at the results of
`pthread_mutex_init` and `pthread_cond_init`: whatever they are, `init` sets
both positions to 0 and leaves the array alone, and `main` goes on to create
the threads from that state; it never gives up. -/
theorem init_results_ignored (results : InitResults) (b : prodcons) :
    initWith results b = init b ∧ (initWith results b).readpos = 0 ∧
      (initWith results b).writepos = 0 ∧ (initWith results b).buffer = b.buffer ∧
      mainStartup results = Startup.started start ∧
      mainStartup results ≠ Startup.aborted := by
  refine ⟨rfl, rfl, rfl, rfl, rfl, ?_⟩
  intro h
  cases h

/-- C16, lock discipline.  Follow a call of `put` or of `get` statement by
statement from its entry, for any number of statements and whatever the other
threads do to the buffer meanwhile.  The lock is owned exactly during the
statements from the test of the loop to `pthread_mutex_unlock`, the
suspension in `pthread_cond_wait` excepted.  So every statement that reads or
writes `buffer`, `readpos` or `writepos` is executed with the lock owned; the
first statement is `pthread_mutex_lock`; a call that has returned executed
`pthread_mutex_unlock` last and no longer owns the lock; while the call is
suspended (`put` on `notfull`, `get` on `notempty`) the lock is not owned, and
at every test of the loop it is owned. -/
theorem lock_discipline (f : Fn) (b : prodcons) (data : Int) (envs : List prodcons)
    (c : Call) (tr : List (Stmt × Bool))
    (h : runCall f (entry b data) envs = some (c, tr)) :
    (∀ e ∈ tr, touched f e.1 ≠ [] → e.2 = true) ∧
      (touched f c.pc ≠ [] → c.owner = true) ∧
      (∀ e ∈ tr, e.2 = insideLock e.1) ∧ c.owner = insideLock c.pc ∧
      (envs ≠ [] → tr.head? = some (Stmt.lock, false)) ∧
      (c.pc = Stmt.ret → tr.getLast? = some (Stmt.unlock, true) ∧ c.owner = false) ∧
      (∀ e ∈ tr, ∀ cv, e.1 = Stmt.wake cv → e.2 = false ∧ cv = waitCond f) ∧
      (∀ e ∈ tr, e.1 = Stmt.guard → e.2 = true) := by
  have hentry : (entry b data).owner = insideLock (entry b data).pc := rfl
  have hcv : ∀ cv, (entry b data).pc = Stmt.wait cv ∨ (entry b data).pc = Stmt.wake cv →
      cv = waitCond f := by
    intro cv hor
    rcases hor with h1 | h1 <;> cases h1
  obtain ⟨h1, -, h3, h4⟩ := runCall_inside f envs (entry b data) c tr hentry hcv h
  refine ⟨?_, ?_, h3, h1, ?_, ?_, ?_, ?_⟩
  · intro e he ht
    rw [h3 e he]; exact touched_inside f e.1 ht
  · intro ht
    rw [h1]; exact touched_inside f c.pc ht
  · intro hne
    cases envs with
    | nil => exact absurd rfl hne
    | cons env envs =>
      obtain ⟨_, _, _, _, htr⟩ := runCall_cons f (entry b data) c env envs tr h
      rw [htr]; rfl
  · intro hret
    refine ⟨runCall_last f envs (entry b data) c tr hentry (by simp [entry]) h hret, ?_⟩
    rw [h1, hret]; rfl
  · intro e he cv hecv
    refine ⟨?_, h4 e he cv hecv⟩
    rw [h3 e he, hecv]; rfl
  · intro e he heg
    rw [h3 e he, heg]; rfl

theorem lock_discipline_witness :
    (∀ e ∈ sampleCallTrace, touched Fn.put e.1 ≠ [] → e.2 = true) ∧
      (touched Fn.put sampleCallFinal.pc ≠ [] → sampleCallFinal.owner = true) ∧
      (∀ e ∈ sampleCallTrace, e.2 = insideLock e.1) ∧
      sampleCallFinal.owner = insideLock sampleCallFinal.pc ∧
      (sampleCallEnvs ≠ [] → sampleCallTrace.head? = some (Stmt.lock, false)) ∧
      (sampleCallFinal.pc = Stmt.ret →
        sampleCallTrace.getLast? = some (Stmt.unlock, true) ∧ sampleCallFinal.owner = false) ∧
      (∀ e ∈ sampleCallTrace, ∀ cv, e.1 = Stmt.wake cv → e.2 = false ∧ cv = waitCond Fn.put) ∧
      (∀ e ∈ sampleCallTrace, e.1 = Stmt.guard → e.2 = true) :=
  lock_discipline Fn.put zeroed 77 sampleCallEnvs sampleCallFinal sampleCallTrace (by decide)

end ProdCons
